import Mathlib

/-!
# A region allocator over a growable memory-mapped file

Shallow embedding of `allocator/mmap.go` (package `allocator` of itsmontoya/rbTree).

Conventions of the embedding:

* Go `int64` values (`tail`, `cap`, offsets, sizes) are integers (`Int`), and the two
  `int64` computations that can overflow, `m.cap *= 2` and `m.tail += sz`, wrap around
  as in Go (`wrap64`). The sum `offset+sz` in `Get` is left unwrapped: a wrapped upper
  bound is negative and an unwrapped one exceeds every buffer, and both make the slice
  expression panic.
* The mutex is not modelled: every operation is one atomic step of a sequential run.
  The one exception is `interleave`, which runs the statements of several concurrent
  `Allocate` calls one at a time under a schedule (`Allocate` takes no lock).
* The results of the backing-store calls (`Stat`, `Unmap`, `Truncate`, `Map`, `Flush`,
  `Close` of the file) are supplied per call by a `Backing` record.
* The loop `for m.cap <= sz { m.cap *= 2 }` need not terminate, so every operation that
  reaches it takes a fuel argument and returns `none` when the fuel runs out.
  "The call returns `r`" is stated as: every large enough fuel yields `some r`.
  "The call never returns" is stated as: every fuel yields `none` (no fuel yields a
  result).
* `journaler.Error` only writes a log line and is dropped.
* `Close` returns a record: the returned error, and as ghost data the backing-store
  operations it ran and the failures it pushed on its local error list.
* A run-time panic (the out-of-range slice expression of `Get`) is `none`.
* `Reachable file m`: `m` is reached from a fresh allocator over `file` by calls with
  positive sizes that met a working backing store.
-/

namespace allocator

/-- The value of an `int64` expression whose mathematical value is `x`: Go wraps the
result around into `-2^63 .. 2^63 - 1`. -/
def wrap64 (x : Int) : Int :=
  (x + 2 ^ 63) % 2 ^ 64 - 2 ^ 63

/-- Section `{Offset, Size}`: a byte range handed out by the allocator. -/
structure Section where
  Offset : Int
  Size : Int
deriving DecidableEq, Repr

/-- Modelled from the spec: the `freelist` type (its file is not part of the sources).
The free list tracks previously released sections, keyed by size; the most recently
released section is first. -/
structure freelist where
  released : List Section
deriving DecidableEq, Repr

/-- Modelled from the spec: removal of the first released section whose size is exactly
`sz` (exact-size match, no coalescing); `none` when there is no such section. -/
def freelist.remove (sz : Int) : List Section → Option (Int × List Section)
  | [] => none
  | s :: rest =>
    if s.Size = sz then some (s.Offset, rest)
    else
      match freelist.remove sz rest with
      | none => none
      | some (o, rest') => some (o, s :: rest')

/-- Modelled from the spec: `freelist.acquire` (missing from the sources) returns the
offset of a previously released range of size `sz` and removes it from the list, or the
not-found sentinel `-1` (the value `Allocate` tests for) when none exists. -/
def freelist.acquire (fl : freelist) (sz : Int) : Int × freelist :=
  match freelist.remove sz fl.released with
  | none => (-1, fl)
  | some (o, rest) => (o, { released := rest })

/-- Modelled from the spec: `freelist.release` (missing from the sources) inserts the
section into the collection, making it eligible for a later `acquire` of its size. -/
def freelist.release (fl : freelist) (s : Section) : freelist :=
  { released := s :: fl.released }

/-- A growth listener (`OnGrowFn`, a zero-argument callback) is identified by a label. -/
abbrev OnGrowFn := Nat

/-- One invocation of a growth listener, with the capacity it could observe. -/
structure Call where
  fn : OnGrowFn
  cap : Int
deriving DecidableEq, Repr

/-- Outcome of each backing-store operation during one call (`true`: no error). -/
structure Backing where
  statOk : Bool
  unmapOk : Bool
  truncateOk : Bool
  mapOk : Bool
  flushOk : Bool
  closeOk : Bool
deriving DecidableEq, Repr

/-- All backing-store operations succeed. -/
def Backing.succeeds (b : Backing) : Prop :=
  b.statOk = true ∧ b.unmapOk = true ∧ b.truncateOk = true ∧ b.mapOk = true ∧
    b.flushOk = true ∧ b.closeOk = true

instance (b : Backing) : Decidable b.succeeds := by
  unfold Backing.succeeds; infer_instance

/-- The backing store on which every operation succeeds. -/
def Backing.ok : Backing :=
  { statOk := true, unmapOk := true, truncateOk := true, mapOk := true,
    flushOk := true, closeOk := true }

/-- The allocator `MMap`. `f` tells whether the file handle is non-nil, `file` holds the
bytes of the backing file, `mm` is the mapped buffer (`none` for nil), `calls` is a ghost
record of the listener invocations made so far. -/
structure MMap where
  f : Bool
  file : List Nat
  mm : Option (List Nat)
  fl : freelist
  tail : Int
  cap : Int
  onGrow : List OnGrowFn
  calls : List Call
deriving DecidableEq, Repr

/-- Constructor `NewMMap` on a file that opens successfully and currently holds `file`. -/
def NewMMap (file : List Nat) : MMap :=
  { f := true, file := file, mm := none, fl := { released := [] }, tail := 0, cap := 0,
    onGrow := [], calls := [] }

/-- Effect of `Truncate(n)` on the file's bytes: cut, or extended with zero bytes. -/
def truncate (file : List Nat) (n : Int) : List Nat :=
  file.take n.toNat ++ List.replicate (n.toNat - file.length) 0

/-- The loop `for m.cap <= sz { m.cap *= 2 }`, the product wrapping around as an
`int64`; `none` when the fuel runs out. -/
def doubling : Nat → Int → Int → Option Int
  | 0, _, _ => none
  | fuel + 1, cap, sz => if cap ≤ sz then doubling fuel (wrap64 (cap * 2)) sz else some cap

/-- Method `MMap.unmap`: nothing to do for a nil buffer; otherwise `Unmap`, which leaves the
buffer nil whether or not it reports an error. -/
def MMap.unmap (m : MMap) (b : Backing) : Bool × MMap :=
  match m.mm with
  | none => (true, m)
  | some _ => (b.unmapOk, { m with mm := none })

/-- Method `MMap.grow` (mmap.go, lines 47-89). The two early returns come first: the
capacity already exceeds `sz`, or the capacity is zero and `Stat` fails. Otherwise a zero
capacity is replaced by the file size, or by `sz` when the file is empty; the loop
doubles the capacity until it exceeds `sz`; then come `unmap`, `Truncate` and `Map`,
each of which returns false on failure with the capacity already changed. -/
def MMap.grow (m : MMap) (fuel : Nat) (b : Backing) (sz : Int) : Option (Bool × MMap) :=
  if m.cap > sz then some (false, m)
  else if m.cap = 0 ∧ b.statOk = false then some (false, m)
  else
    let m1 : MMap :=
      if m.cap = 0 then
        { m with cap := if (m.file.length : Int) = 0 then sz else (m.file.length : Int) }
      else m
    match doubling fuel m1.cap sz with
    | none => none
    | some c =>
      let m2 : MMap := { m1 with cap := c }
      let r := m2.unmap b
      if r.1 = false then some (false, r.2)
      else if b.truncateOk = false then some (false, r.2)
      else
        let m3 : MMap := { r.2 with file := truncate r.2.file c }
        if b.mapOk = false then some (false, { m3 with mm := none })
        else some (true, { m3 with mm := some m3.file })

/-- Method `MMap.notify`: every registered listener is called, in the order of `onGrow`. -/
def MMap.notify (m : MMap) : MMap :=
  { m with calls := m.calls ++ m.onGrow.map (fun fn => { fn := fn, cap := m.cap }) }

/-- Method `MMap.Grow`: `grow`, then `notify` when `grow` returned true. -/
def MMap.Grow (m : MMap) (fuel : Nat) (b : Backing) (sz : Int) : Option (Bool × MMap) :=
  match m.grow fuel b sz with
  | none => none
  | some (grew, m') => if grew = true then some (true, m'.notify) else some (false, m')

/-- Method `MMap.EnsureSize`: returns false when the tail is at least `sz`; otherwise
sets the tail to `sz` and returns what `grow` (not `Grow`) returns. -/
def MMap.EnsureSize (m : MMap) (fuel : Nat) (b : Backing) (sz : Int) :
    Option (Bool × MMap) :=
  if m.tail ≥ sz then some (false, m)
  else ({ m with tail := sz } : MMap).grow fuel b sz

/-- Method `MMap.Get`: the slice `m.mm[offset : offset+sz]`; `none` stands for the run-time
panic of an out-of-range slice expression. -/
def MMap.Get (m : MMap) (offset sz : Int) : Option (List Nat) :=
  let buf := m.mm.getD []
  if 0 ≤ offset ∧ offset ≤ offset + sz ∧ offset + sz ≤ (buf.length : Int) then
    some ((buf.drop offset.toNat).take sz.toNat)
  else none

/-- Method `MMap.Allocate`: asks the free list; an answer other than `-1` is returned as
the offset with `grew = false`; otherwise the section starts at the tail, the tail
advances by `sz` (`m.tail += sz`, wrapping around as an `int64`) and `Grow` is called
with the new tail. -/
def MMap.Allocate (m : MMap) (fuel : Nat) (b : Backing) (sz : Int) :
    Option ((Section × Bool) × MMap) :=
  let r := m.fl.acquire sz
  let m1 : MMap := { m with fl := r.2 }
  if r.1 ≠ -1 then some (({ Offset := r.1, Size := sz }, false), m1)
  else
    let m2 : MMap := { m1 with tail := wrap64 (m1.tail + sz) }
    match m2.Grow fuel b m2.tail with
    | none => none
    | some (grew, m3) => some (({ Offset := m1.tail, Size := sz }, grew), m3)

/-- Method `MMap.Release`: hands the section to the free list. -/
def MMap.Release (m : MMap) (s : Section) : MMap :=
  { m with fl := m.fl.release s }

/-- Method `MMap.OnGrow`: appends the listener to `onGrow`. -/
def MMap.OnGrow (m : MMap) (fn : OnGrowFn) : MMap :=
  { m with onGrow := m.onGrow ++ [fn] }

/-- A backing-store operation performed by `Close`. -/
inductive StoreOp where
  | flush
  | unmap
  | close
deriving DecidableEq, Repr

/-- The errors the allocator itself returns: `errors.ErrIsClosed`. -/
inductive Error where
  | ErrIsClosed
deriving DecidableEq, Repr

/-- What one `Close` call did: `err` is the returned error (`none` for nil); `performed`
lists the backing-store operations it ran, in order; `errs` is the content of its local
`errors.ErrorList` at the return, the operations whose error was pushed; `m` is the
allocator afterwards. -/
structure CloseResult where
  err : Option Error
  performed : List StoreOp
  errs : List StoreOp
  m : MMap
deriving DecidableEq, Repr

/-- Method `MMap.Close` (mmap.go, lines 153-167): with a nil file handle it returns
`ErrIsClosed` at once. Otherwise it pushes the results of `Flush`, `Unmap` and the
file's `Close` on the local list `errs`, sets the handle to nil and executes a bare
`return`: the named result `err` was never assigned, so nil is returned. `Unmap` leaves
the buffer nil. -/
def MMap.Close (m : MMap) (b : Backing) : CloseResult :=
  if m.f = false then { err := some Error.ErrIsClosed, performed := [], errs := [], m := m }
  else
    let errs0 : List StoreOp := []
    let errs1 := if b.flushOk = true then errs0 else errs0 ++ [StoreOp.flush]
    let errs2 := if b.unmapOk = true then errs1 else errs1 ++ [StoreOp.unmap]
    let errs3 := if b.closeOk = true then errs2 else errs2 ++ [StoreOp.close]
    { err := none, performed := [StoreOp.flush, StoreOp.unmap, StoreOp.close], errs := errs3,
      m := { m with mm := none, f := false } }

/-- Runs `Allocate` on each request in turn (a request is the size together with the
backing-store outcomes met during that call) and collects the returned sections. -/
def allocateAll (fuel : Nat) : MMap → List (Backing × Int) → Option (List Section × MMap)
  | m, [] => some ([], m)
  | m, r :: rest =>
    match m.Allocate fuel r.1 r.2 with
    | none => none
    | some (res, m') =>
      match allocateAll fuel m' rest with
      | none => none
      | some (ss, m'') => some (res.1 :: ss, m'')

/-- The capacity with which `grow` enters its loop: the current capacity, or when that
is zero the size of the file, or when that is zero too the requested size. -/
def growStart (m : MMap) (sz : Int) : Int :=
  if m.cap = 0 then (if (m.file.length : Int) = 0 then sz else (m.file.length : Int))
  else m.cap

/-- What `grow` returns once its loop has produced the capacity `c`. -/
def growResult (m : MMap) (b : Backing) (c : Int) : Bool × MMap :=
  let m2 : MMap := { m with cap := c }
  let r := m2.unmap b
  if r.1 = false then (false, r.2)
  else if b.truncateOk = false then (false, r.2)
  else
    let m3 : MMap := { r.2 with file := truncate r.2.file c }
    if b.mapOk = false then (false, { m3 with mm := none })
    else (true, { m3 with mm := some m3.file })

/-- The allocator after a successful remapping at capacity `c`: the file is truncated to
`c` bytes and mapped anew. -/
def MMap.remapped (m : MMap) (c : Int) : MMap :=
  { m with cap := c, file := truncate m.file c, mm := some (truncate m.file c) }

/-- The allocator at the point where `Allocate` calls `Grow`: the free list has been
asked for `sz` bytes and the tail has been advanced by `sz` in `int64` arithmetic. -/
def MMap.carved (m : MMap) (sz : Int) : MMap :=
  { m with fl := (m.fl.acquire sz).2, tail := wrap64 (m.tail + sz) }

/-- The byte ranges `[Offset, Offset+Size)` of two sections do not overlap. -/
def Section.disjoint (a b : Section) : Prop :=
  a.Offset + a.Size ≤ b.Offset ∨ b.Offset + b.Size ≤ a.Offset

/-- Some backing-store operation that `grow` performs on `m` fails under `b`: `Stat`
(called when the capacity is zero), `Unmap` (called when a buffer is mapped), `Truncate`
or `Map`. -/
def growFails (m : MMap) (b : Backing) : Prop :=
  (m.cap = 0 ∧ b.statOk = false) ∨ (m.mm ≠ none ∧ b.unmapOk = false) ∨
    b.truncateOk = false ∨ b.mapOk = false

/-- A call of one of the four operations `Grow`, `EnsureSize`, `Allocate`, `Release`. -/
inductive Op where
  | Grow (sz : Int)
  | EnsureSize (sz : Int)
  | Allocate (sz : Int)
  | Release (s : Section)
deriving DecidableEq, Repr

/-- The size a call is made with is positive. -/
def Op.positive : Op → Prop
  | Op.Grow sz => 0 < sz
  | Op.EnsureSize sz => 0 < sz
  | Op.Allocate sz => 0 < sz
  | Op.Release s => 0 < s.Size

/-- What a call returns to its caller. -/
inductive Output where
  | grew (g : Bool)
  | allocated (s : Section) (g : Bool)
  | released
deriving DecidableEq, Repr

/-- Performs one call on the allocator. -/
def MMap.call (m : MMap) (fuel : Nat) (b : Backing) : Op → Option (Output × MMap)
  | Op.Grow sz => (m.Grow fuel b sz).map (fun r => (Output.grew r.1, r.2))
  | Op.EnsureSize sz => (m.EnsureSize fuel b sz).map (fun r => (Output.grew r.1, r.2))
  | Op.Allocate sz => (m.Allocate fuel b sz).map (fun r => (Output.allocated r.1.1 r.1.2, r.2))
  | Op.Release s => some (Output.released, m.Release s)

/-- The states reached from a fresh allocator over `file` by calls of `Grow`,
`EnsureSize`, `Allocate` and `Release` with positive sizes, each of which returned and
met a backing store whose operations all succeed. -/
inductive Reachable (file : List Nat) : MMap → Prop where
  | fresh : Reachable file (NewMMap file)
  | call {m m' : MMap} {b : Backing} {fuel : Nat} {op : Op} {out : Output} :
      Reachable file m → op.positive → b.succeeds → m.call fuel b op = some (out, m') →
      Reachable file m'

/-- The invariant that every run keeps, overflow or not: the capacity is not negative,
the tail does not exceed it, and the mapped buffer (empty when nil) is exactly as long
as the capacity. -/
def MMap.inv (m : MMap) : Prop :=
  0 ≤ m.cap ∧ m.tail ≤ m.cap ∧ ((m.mm.getD []).length : Int) = m.cap

/-- The tail a call asks the backing store to hold stays below `2^62`, so that neither
the tail nor a doubled capacity leaves the range of `int64`: the size for `Grow` and
`EnsureSize`, the old tail plus the size for `Allocate`. -/
def Op.within (m : MMap) : Op → Prop
  | Op.Grow sz => sz < 2 ^ 62
  | Op.EnsureSize sz => sz < 2 ^ 62
  | Op.Allocate sz => m.tail + sz < 2 ^ 62
  | Op.Release _ => True

/-- The states reached from a fresh allocator over `file` by calls with positive sizes
that stay within `2^62` (see `Op.within`), each of which returned and met a backing
store whose operations all succeed. -/
inductive ReachableWithin (file : List Nat) : MMap → Prop where
  | fresh : ReachableWithin file (NewMMap file)
  | call {m m' : MMap} {b : Backing} {fuel : Nat} {op : Op} {out : Output} :
      ReachableWithin file m → op.positive → op.within m → b.succeeds →
      m.call fuel b op = some (out, m') → ReachableWithin file m'

/-- The capacity after `n` rounds of the loop body `m.cap *= 2`. -/
def doubled : Nat → Int → Int
  | 0, c => c
  | n + 1, c => doubled n (wrap64 (c * 2))

/-- A caller inside `Allocate(sz)`: `pc` counts the statements it has executed (0: none;
1: the free list was asked and had nothing; 2: `s.Offset = m.tail` done; 3:
`m.tail += sz` done; 4: returned), `s` and `grew` are its named results so far. -/
structure Caller where
  sz : Int
  pc : Nat
  s : Section
  grew : Bool
deriving DecidableEq, Repr

/-- A caller that has just entered `Allocate(sz)`. -/
def Caller.start (sz : Int) : Caller :=
  { sz := sz, pc := 0, s := { Offset := 0, Size := 0 }, grew := false }

/-- The next statement of `Allocate` (mmap.go, lines 130-138) executed by caller `c` on
the shared allocator; `Allocate` holds no lock, so another caller may run between two
of these steps. The call `m.Grow(m.tail)` is taken as one step: the schedules in which
no other caller runs during it. -/
def MMap.AllocateStep (m : MMap) (fuel : Nat) (b : Backing) (c : Caller) :
    Option (MMap × Caller) :=
  match c.pc with
  | 0 =>
    let r := m.fl.acquire c.sz
    some ({ m with fl := r.2 },
      { c with s := { Offset := r.1, Size := c.sz }, pc := if r.1 ≠ -1 then 4 else 1 })
  | 1 => some (m, { c with s := { Offset := m.tail, Size := c.sz }, pc := 2 })
  | 2 => some ({ m with tail := wrap64 (m.tail + c.sz) }, { c with pc := 3 })
  | 3 =>
    match m.Grow fuel b m.tail with
    | none => none
    | some (g, m') => some (m', { c with grew := g, pc := 4 })
  | _ => some (m, c)

/-- Runs the callers `cs` on one allocator under a schedule: each entry of the schedule
names the caller that executes its next statement. -/
def interleave (fuel : Nat) (b : Backing) : MMap → List Caller → List Nat →
    Option (MMap × List Caller)
  | m, cs, [] => some (m, cs)
  | m, cs, i :: rest =>
    match cs[i]? with
    | none => none
    | some c =>
      match m.AllocateStep fuel b c with
      | none => none
      | some (m', c') => interleave fuel b m' (cs.set i c') rest

/-! ## The doubling loop -/

/-- Inside the range of `int64` nothing wraps. -/
theorem wrap64_eq (x : Int) (h1 : -2 ^ 63 ≤ x) (h2 : x < 2 ^ 63) : wrap64 x = x := by
  unfold wrap64; omega

/-- From a positive capacity and for a request below `2^62` the loop stops at the first
doubling that exceeds `sz`; no doubling wraps. -/
theorem doubling_spec (sz : Int) (hrep : sz < 2 ^ 62) : ∀ (fuel : Nat) (c : Int), 0 < c →
    (sz - c + 1).toNat + 1 ≤ fuel →
    ∃ k : Nat, doubling fuel c sz = some (c * 2 ^ k) ∧ sz < c * 2 ^ k ∧
      ∀ j, j < k → c * 2 ^ j ≤ sz := by
  intro fuel
  induction fuel with
  | zero => intro c _ h; omega
  | succ n ih =>
    intro c hc hf
    by_cases h : c ≤ sz
    · obtain ⟨k, hk, hlt, hmin⟩ := ih (c * 2) (by omega) (by omega)
      have e : ∀ i : Nat, c * 2 ^ (i + 1) = c * 2 * 2 ^ i := fun i => by ring
      have hw : wrap64 (c * 2) = c * 2 := wrap64_eq _ (by omega) (by omega)
      refine ⟨k + 1, ?_, ?_, ?_⟩
      · simp only [doubling, h, if_true, hw]
        rw [hk, e]
      · rw [e]; exact hlt
      · intro j hj
        cases j with
        | zero => simpa using h
        | succ j => rw [e]; exact hmin j (by omega)
    · refine ⟨0, ?_, ?_, ?_⟩
      · simp [doubling, h]
      · simpa using (by omega : sz < c)
      · intro j hj; omega

/-- Some doubling of a positive capacity exceeds `sz`; `k` is the least number of
doublings that does. -/
theorem exists_least_doubling (c sz : Int) (hc : 0 < c) :
    ∃ k : Nat, sz < c * 2 ^ k ∧ ∀ j, j < k → c * 2 ^ j ≤ sz := by
  have hex : ∃ k : Nat, sz < c * 2 ^ k := by
    refine ⟨sz.toNat, ?_⟩
    have h1 : (sz.toNat : Int) < 2 ^ sz.toNat := by exact_mod_cast Nat.lt_two_pow sz.toNat
    have h2 : (2 : Int) ^ sz.toNat ≤ c * 2 ^ sz.toNat :=
      le_mul_of_one_le_left (by positivity) (by omega)
    have h3 : sz ≤ (sz.toNat : Int) := Int.self_le_toNat sz
    omega
  classical
  refine ⟨Nat.find hex, Nat.find_spec hex, fun j hj => ?_⟩
  have := Nat.find_min hex hj
  omega

/-- When the least doubling of a positive capacity that exceeds `sz` is below `2^63`,
the loop stops exactly there. -/
theorem doubling_exact (sz : Int) : ∀ (k fuel : Nat) (c : Int), 0 < c → k + 1 ≤ fuel →
    (∀ j, j < k → c * 2 ^ j ≤ sz) → sz < c * 2 ^ k → c * 2 ^ k < 2 ^ 63 →
    doubling fuel c sz = some (c * 2 ^ k) := by
  intro k
  induction k with
  | zero =>
    intro fuel c _ hf _ hlt _
    obtain ⟨n, rfl⟩ : ∃ n, fuel = n + 1 := ⟨fuel - 1, by omega⟩
    have h : ¬ c ≤ sz := by simpa using hlt
    simp [doubling, h]
  | succ k ih =>
    intro fuel c hc hf hmin hlt hrep
    obtain ⟨n, rfl⟩ : ∃ n, fuel = n + 1 := ⟨fuel - 1, by omega⟩
    have e : ∀ i : Nat, c * 2 ^ (i + 1) = c * 2 * 2 ^ i := fun i => by ring
    have h : c ≤ sz := by simpa using hmin 0 (by omega)
    have hp : (1 : Int) ≤ 2 ^ k := one_le_pow₀ (by norm_num)
    have hle : c * 2 ≤ c * 2 * 2 ^ k := le_mul_of_one_le_right (by omega) hp
    rw [e] at hlt hrep
    have hw : wrap64 (c * 2) = c * 2 := wrap64_eq _ (by omega) (by omega)
    simp only [doubling, h, if_true, hw]
    rw [e]
    exact ih n (c * 2) (by omega) (by omega)
      (fun j hj => by rw [← e]; exact hmin (j + 1) (by omega)) hlt hrep

/-- From capacity zero and for a request that is not negative the loop never stops. -/
theorem doubling_diverges (sz : Int) (h : 0 ≤ sz) : ∀ fuel : Nat,
    doubling fuel 0 sz = none := by
  intro fuel
  induction fuel with
  | zero => rfl
  | succ n ih =>
    have hw : wrap64 (0 * 2) = 0 := by decide
    simp only [doubling, h, if_true, hw]
    exact ih

/-- When `n` rounds of doubling, none of which exceeds `sz`, bring the capacity to 0,
the loop never stops. -/
theorem doubling_hangs (sz : Int) : ∀ (n : Nat) (c : Int),
    (∀ j, j ≤ n → doubled j c ≤ sz) → doubled n c = 0 → ∀ fuel : Nat,
    doubling fuel c sz = none := by
  intro n
  induction n with
  | zero =>
    intro c hle h0 fuel
    have hc : c = 0 := h0
    have := hle 0 (le_refl _)
    subst hc
    exact doubling_diverges sz this fuel
  | succ n ih =>
    intro c hle h0 fuel
    cases fuel with
    | zero => rfl
    | succ f =>
      have hc : c ≤ sz := hle 0 (by omega)
      simp only [doubling, hc, if_true]
      exact ih (wrap64 (c * 2)) (fun j hj => hle (j + 1) (by omega)) h0 f

/-- A result of the loop does not depend on the fuel that produced it. -/
theorem doubling_mono (sz : Int) : ∀ (fuel : Nat) (c r : Int), doubling fuel c sz = some r →
    ∀ fuel', fuel ≤ fuel' → doubling fuel' c sz = some r := by
  intro fuel
  induction fuel with
  | zero => intro c r h; simp [doubling] at h
  | succ n ih =>
    intro c r h fuel' hle
    obtain ⟨n', rfl⟩ : ∃ n', fuel' = n' + 1 := ⟨fuel' - 1, by omega⟩
    by_cases hc : c ≤ sz
    · simp only [doubling, hc, if_true] at h ⊢
      exact ih _ _ h n' (by omega)
    · simp only [doubling, hc, if_false] at h ⊢
      exact h

/-! ## Frame and result lemmas for `grow` and `Grow` -/

/-- Below the capacity `grow` returns at once, whatever the fuel. -/
theorem grow_below (m : MMap) (fuel : Nat) (b : Backing) (sz : Int) (h : sz < m.cap) :
    m.grow fuel b sz = some (false, m) := by
  simp [MMap.grow, h]

/-- With capacity zero and a failing `Stat`, `grow` returns at once. -/
theorem grow_stat_fails (m : MMap) (fuel : Nat) (b : Backing) (sz : Int)
    (h0 : m.cap = 0) (hs : b.statOk = false) : m.grow fuel b sz = some (false, m) := by
  simp [MMap.grow, h0, hs]

/-- Past its two early returns, `grow` is the loop followed by the remapping. -/
theorem grow_eq (m : MMap) (fuel : Nat) (b : Backing) (sz : Int) (h : ¬ sz < m.cap)
    (hs : ¬ (m.cap = 0 ∧ b.statOk = false)) :
    m.grow fuel b sz = (doubling fuel (growStart m sz) sz).map (growResult m b) := by
  unfold MMap.grow growStart
  rw [if_neg (by simpa using h), if_neg hs]
  by_cases h0 : m.cap = 0
  · simp only [h0, if_true]
    cases doubling fuel _ sz with
    | none => rfl
    | some c => simp only [Option.map_some', growResult]; split_ifs <;> rfl
  · simp only [h0, if_false]
    cases doubling fuel _ sz with
    | none => rfl
    | some c => simp only [Option.map_some', growResult]; split_ifs <;> rfl

/-- The remapping changes only the capacity, the file and the buffer. -/
theorem growResult_frame (m : MMap) (b : Backing) (c : Int) :
    (growResult m b c).2.tail = m.tail ∧ (growResult m b c).2.fl = m.fl ∧
    (growResult m b c).2.onGrow = m.onGrow ∧ (growResult m b c).2.calls = m.calls ∧
    (growResult m b c).2.f = m.f ∧ (growResult m b c).2.cap = c := by
  unfold growResult MMap.unmap
  cases m.mm <;> cases b.unmapOk <;> cases b.truncateOk <;> cases b.mapOk <;> simp

/-- When every backing-store operation succeeds the remapping reports growth. -/
theorem growResult_ok (m : MMap) (b : Backing) (c : Int) (hb : b.succeeds) :
    growResult m b c = (true, m.remapped c) := by
  obtain ⟨-, hu, ht, hm, -, -⟩ := hb
  unfold growResult MMap.unmap MMap.remapped
  cases m.mm <;> simp [hu, ht, hm]

/-- Whatever `grow` returns, it leaves tail, free list, listeners and call record alone. -/
theorem grow_frame {m m' : MMap} {fuel : Nat} {b : Backing} {sz : Int} {g : Bool}
    (h : m.grow fuel b sz = some (g, m')) :
    m'.tail = m.tail ∧ m'.fl = m.fl ∧ m'.onGrow = m.onGrow ∧ m'.calls = m.calls ∧
      m'.f = m.f := by
  by_cases h1 : sz < m.cap
  · rw [grow_below m fuel b sz h1] at h
    cases h; simp
  by_cases h2 : m.cap = 0 ∧ b.statOk = false
  · rw [grow_stat_fails m fuel b sz h2.1 h2.2] at h
    cases h; simp
  rw [grow_eq m fuel b sz h1 h2] at h
  cases hd : doubling fuel (growStart m sz) sz with
  | none => simp [hd] at h
  | some c =>
    simp only [hd, Option.map_some', Option.some.injEq] at h
    have hf := growResult_frame m b c
    rw [h] at hf
    exact ⟨hf.1, hf.2.1, hf.2.2.1, hf.2.2.2.1, hf.2.2.2.2.1⟩

/-- The start capacity of the loop is positive when the capacity is not negative and the
request is positive. -/
theorem growStart_pos (m : MMap) (sz : Int) (hc : 0 ≤ m.cap) (hsz : 0 < sz) :
    0 < growStart m sz := by
  unfold growStart
  split_ifs <;> omega

/-- From a capacity that is not negative, `grow` of a positive size below `2^62` returns
for every fuel above the size, and the capacity stays non-negative. -/
theorem grow_returns (m : MMap) (b : Backing) (sz : Int) (hc : 0 ≤ m.cap) (hsz : 0 < sz)
    (hrep : sz < 2 ^ 62) (fuel : Nat) (hf : sz.toNat + 2 ≤ fuel) :
    ∃ g m', m.grow fuel b sz = some (g, m') ∧ 0 ≤ m'.cap := by
  by_cases h1 : sz < m.cap
  · exact ⟨false, m, grow_below m fuel b sz h1, hc⟩
  by_cases h2 : m.cap = 0 ∧ b.statOk = false
  · exact ⟨false, m, grow_stat_fails m fuel b sz h2.1 h2.2, hc⟩
  have hp := growStart_pos m sz hc hsz
  obtain ⟨k, hk, hlt, -⟩ := doubling_spec sz hrep fuel (growStart m sz) hp (by omega)
  refine ⟨(growResult m b (growStart m sz * 2 ^ k)).1,
    (growResult m b (growStart m sz * 2 ^ k)).2, ?_, ?_⟩
  · rw [grow_eq m fuel b sz h1 h2, hk]; rfl
  · rw [(growResult_frame m b _).2.2.2.2.2]; omega

/-- Method `Grow` is `grow` followed by the notification when `grow` reports growth. -/
theorem Grow_eq (m : MMap) (fuel : Nat) (b : Backing) (sz : Int) :
    m.Grow fuel b sz =
      (m.grow fuel b sz).map (fun r => if r.1 = true then (true, r.2.notify) else (false, r.2)) := by
  unfold MMap.Grow
  cases m.grow fuel b sz with
  | none => rfl
  | some r =>
    obtain ⟨g, m'⟩ := r
    cases g <;> simp

/-- With a non-zero capacity not above `sz` and a working backing store, `grow` returns
true at the capacity the loop produces. -/
theorem grow_of_doubling (m : MMap) (b : Backing) (sz : Int) (hc : m.cap ≠ 0)
    (hsz : m.cap ≤ sz) (hb : b.succeeds) (fuel : Nat) (c : Int)
    (hd : doubling fuel m.cap sz = some c) :
    m.grow fuel b sz = some (true, m.remapped c) := by
  have hs : growStart m sz = m.cap := by
    unfold growStart; rw [if_neg hc]
  rw [grow_eq m fuel b sz (by omega) (fun h => hc h.1), hs, hd]
  simp [growResult_ok m b _ hb]

/-! ## Grow -/

/-- Counterexample to C4: from capacity 8, with the backing store working, `Grow(2^62)`
never returns, whatever the fuel: the capacity doubles up to `2^62`, which is not above
the request, wraps to `-2^63` and then to 0, and 0 is doubled for ever. -/
theorem Grow_overflow_never_returns :
    ¬ ∃ fuel r, ((NewMMap []).remapped 8).Grow fuel Backing.ok (2 ^ 62) = some r := by
  rintro ⟨fuel, r, h⟩
  have h0 : ((NewMMap []).remapped 8).Grow fuel Backing.ok (2 ^ 62) = none := by
    rw [Grow_eq, grow_eq _ _ _ _ (by decide) (by decide)]
    have hs : growStart ((NewMMap []).remapped 8) (2 ^ 62) = 8 := by decide
    rw [hs, doubling_hangs (2 ^ 62) 61 8 (by decide) (by decide) fuel]
    rfl
  rw [h0] at h
  cases h

/-- C4 (amended): from a positive capacity `c` and a request `sz >= c`, let `k` be the
least `k >= 1` with `c * 2^k > sz`; then `c * 2^k` is at most `2 * sz`, and when it fits
in `int64` (`c * 2^k < 2^63`, which holds whenever `sz < 2^62`) and the backing store
works, `Grow(sz)` returns true and the new capacity is `c * 2^k`. -/
theorem Grow_doubles_capacity (m : MMap) (b : Backing) (sz : Int) (hc : 0 < m.cap)
    (hsz : m.cap ≤ sz) (hb : b.succeeds) :
    ∃ k : Nat, 1 ≤ k ∧ sz < m.cap * 2 ^ k ∧
      (∀ j : Nat, 1 ≤ j → sz < m.cap * 2 ^ j → k ≤ j) ∧ m.cap * 2 ^ k ≤ 2 * sz ∧
      (sz < 2 ^ 62 → m.cap * 2 ^ k < 2 ^ 63) ∧
      (m.cap * 2 ^ k < 2 ^ 63 →
        ∃ fuel, ∀ fuel', fuel ≤ fuel' →
          ∃ m', m.Grow fuel' b sz = some (true, m') ∧ m'.cap = m.cap * 2 ^ k) := by
  obtain ⟨k, hlt, hmin⟩ := exists_least_doubling m.cap sz hc
  have hk1 : 1 ≤ k := by
    rcases Nat.eq_zero_or_pos k with h0 | h0
    · subst h0; simp at hlt; omega
    · exact h0
  have h2 : m.cap * 2 ^ k ≤ 2 * sz := by
    have h := hmin (k - 1) (by omega)
    have e : m.cap * 2 ^ k = 2 * (m.cap * 2 ^ (k - 1)) := by
      obtain ⟨i, rfl⟩ : ∃ i, k = i + 1 := ⟨k - 1, by omega⟩
      simp only [Nat.add_sub_cancel]; ring
    omega
  refine ⟨k, hk1, hlt, ?_, h2, fun h => by omega, fun hrep => ⟨k + 1, ?_⟩⟩
  · intro j _ hj
    by_contra hlt'
    have := hmin j (by omega)
    omega
  · intro fuel' hle
    have hd := doubling_exact sz k fuel' m.cap hc hle hmin hlt hrep
    refine ⟨(m.remapped (m.cap * 2 ^ k)).notify, ?_, rfl⟩
    rw [Grow_eq, grow_of_doubling m b sz (by omega) hsz hb fuel' _ hd]
    rfl

/-- Witness of C4 (amended): capacity 4 and a request of 9 bytes. -/
theorem Grow_doubles_capacity_witness :
    ∃ k : Nat, 1 ≤ k ∧ (9 : Int) < 4 * 2 ^ k ∧
      (∀ j : Nat, 1 ≤ j → (9 : Int) < 4 * 2 ^ j → k ≤ j) ∧ (4 : Int) * 2 ^ k ≤ 2 * 9 ∧
      ((9 : Int) < 2 ^ 62 → (4 : Int) * 2 ^ k < 2 ^ 63) ∧
      ((4 : Int) * 2 ^ k < 2 ^ 63 →
        ∃ fuel, ∀ fuel', fuel ≤ fuel' →
          ∃ m', ({ NewMMap [] with cap := 4 } : MMap).Grow fuel' Backing.ok 9
              = some (true, m') ∧ m'.cap = 4 * 2 ^ k) :=
  Grow_doubles_capacity ({ NewMMap [] with cap := 4 } : MMap) Backing.ok 9 (by decide)
    (by decide) (by decide)

/-- Counterexample to C5: on a fresh allocator over an empty file `Grow(4)` sets the
capacity to 8, and `Grow(8)` on the resulting allocator, a request equal to the capacity,
returns true and doubles the capacity to 16. -/
theorem Grow_at_capacity_grows :
    ((NewMMap []).Grow 5 Backing.ok 4).bind (fun r =>
      (r.2.Grow 5 Backing.ok r.2.cap).map (fun r' => (r.2.cap, r'.1, r'.2.cap)))
      = some (8, true, 16) := by
  decide

/-- C5 (amended): for every `sz` strictly below the capacity, `Grow(sz)` returns false and
leaves the whole allocator (capacity, tail, buffer, record of listener calls) unchanged. -/
theorem Grow_below_capacity (m : MMap) (fuel : Nat) (b : Backing) (sz : Int)
    (h : sz < m.cap) : m.Grow fuel b sz = some (false, m) := by
  rw [Grow_eq, grow_below m fuel b sz h]
  rfl

/-- Witness of C5 (amended): capacity 8 and a request of 7 bytes. -/
theorem Grow_below_capacity_witness :
    ({ NewMMap [] with cap := 8 } : MMap).Grow 0 Backing.ok 7
      = some (false, ({ NewMMap [] with cap := 8 } : MMap)) :=
  Grow_below_capacity ({ NewMMap [] with cap := 8 } : MMap) 0 Backing.ok 7 (by decide)

/-! ## Allocate and Release -/

/-- Calling `Grow` with a positive size below `2^62` from a non-negative capacity returns
for every fuel above the size; it keeps the tail and the free list, and the capacity stays non-negative. -/
theorem Grow_returns (m : MMap) (b : Backing) (sz : Int) (hc : 0 ≤ m.cap) (hsz : 0 < sz)
    (hrep : sz < 2 ^ 62) (fuel : Nat) (hf : sz.toNat + 2 ≤ fuel) :
    ∃ g m', m.Grow fuel b sz = some (g, m') ∧ 0 ≤ m'.cap ∧ m'.tail = m.tail ∧
      m'.fl = m.fl := by
  obtain ⟨g, m1, hg, hc1⟩ := grow_returns m b sz hc hsz hrep fuel hf
  obtain ⟨ht, hfl, -, -, -⟩ := grow_frame hg
  rw [Grow_eq, hg]
  cases g with
  | false => exact ⟨false, m1, rfl, hc1, ht, hfl⟩
  | true => exact ⟨true, m1.notify, rfl, hc1, ht, hfl⟩

/-- When the free list has nothing for `sz`, `Allocate` hands out the range at the old
tail and reports what `Grow` of the new tail reports. -/
theorem Allocate_tail (m : MMap) (fuel : Nat) (b : Backing) (sz : Int)
    (h : (m.fl.acquire sz).1 = -1) :
    m.Allocate fuel b sz =
      ((m.carved sz).Grow fuel b (wrap64 (m.tail + sz))).map
        (fun r => (({ Offset := m.tail, Size := sz }, r.1), r.2)) := by
  unfold MMap.Allocate MMap.carved
  simp only [h, ne_eq, not_true_eq_false, if_false]
  cases MMap.Grow _ fuel b (wrap64 (m.tail + sz)) with
  | none => rfl
  | some r => rfl

/-- An empty free list answers every request with the sentinel and stays empty. -/
theorem acquire_empty (fl : freelist) (sz : Int) (h : fl.released = []) :
    fl.acquire sz = (-1, fl) := by
  simp [freelist.acquire, h, freelist.remove]

/-- One `Allocate` of a positive size on an allocator with an empty free list, the new
tail staying below `2^62`. -/
theorem Allocate_empty_freelist (m : MMap) (b : Backing) (sz : Int)
    (hfl : m.fl.released = []) (hc : 0 ≤ m.cap) (ht : 0 ≤ m.tail) (hsz : 0 < sz)
    (hrep : m.tail + sz < 2 ^ 62) (fuel : Nat) (hf : (m.tail + sz).toNat + 2 ≤ fuel) :
    ∃ g m', m.Allocate fuel b sz = some (({ Offset := m.tail, Size := sz }, g), m') ∧
      m'.fl.released = [] ∧ 0 ≤ m'.cap ∧ m'.tail = m.tail + sz := by
  have ha := acquire_empty m.fl sz hfl
  have hw : wrap64 (m.tail + sz) = m.tail + sz := wrap64_eq _ (by omega) (by omega)
  obtain ⟨g, m1, hg, hc1, ht1, hfl1⟩ :=
    Grow_returns (m.carved sz) b (m.tail + sz) hc (by omega) hrep fuel hf
  refine ⟨g, m1, ?_, ?_, hc1, ?_⟩
  · rw [Allocate_tail m fuel b sz (by rw [ha]), hw, hg]; rfl
  · rw [hfl1]; simp [MMap.carved, ha, hfl]
  · rw [ht1]; exact hw

/-- Whatever `Grow` returns, it leaves tail, free list and listeners alone. -/
theorem Grow_frame {m m' : MMap} {fuel : Nat} {b : Backing} {sz : Int} {g : Bool}
    (h : m.Grow fuel b sz = some (g, m')) :
    m'.tail = m.tail ∧ m'.fl = m.fl ∧ m'.onGrow = m.onGrow := by
  rw [Grow_eq] at h
  cases hg : m.grow fuel b sz with
  | none => simp [hg] at h
  | some r =>
    obtain ⟨g1, m1⟩ := r
    obtain ⟨ht, hfl, hon, -, -⟩ := grow_frame hg
    cases g1 with
    | false =>
      simp only [hg, Option.map_some', Bool.false_eq_true, if_false, Option.some.injEq,
        Prod.mk.injEq] at h
      obtain ⟨-, rfl⟩ := h
      exact ⟨ht, hfl, hon⟩
    | true =>
      simp only [hg, Option.map_some', if_true, Option.some.injEq, Prod.mk.injEq] at h
      obtain ⟨-, rfl⟩ := h
      exact ⟨ht, hfl, hon⟩

/-- Whenever an `Allocate` that found nothing in the free list returns, the section is
the range at the old tail and the tail has advanced by `sz` in `int64` arithmetic. -/
theorem Allocate_tail_post {m m' : MMap} {fuel : Nat} {b : Backing} {sz : Int}
    {s : Section} {g : Bool} (ha : (m.fl.acquire sz).1 = -1)
    (h : m.Allocate fuel b sz = some ((s, g), m')) :
    s = { Offset := m.tail, Size := sz } ∧ m'.tail = wrap64 (m.tail + sz) := by
  rw [Allocate_tail m fuel b sz ha] at h
  cases hG : (m.carved sz).Grow fuel b (wrap64 (m.tail + sz)) with
  | none => simp [hG] at h
  | some r =>
    obtain ⟨g1, m1⟩ := r
    simp only [hG, Option.map_some', Option.some.injEq, Prod.mk.injEq] at h
    obtain ⟨⟨rfl, -⟩, rfl⟩ := h
    exact ⟨rfl, (Grow_frame hG).1⟩

/-- An `Allocate` that finds nothing in the free list returns, for every large enough
fuel, as soon as the capacity is not negative and the new tail is positive and below
`2^62`. -/
theorem Allocate_tail_returns (m : MMap) (b : Backing) (sz : Int)
    (ha : (m.fl.acquire sz).1 = -1) (hc : 0 ≤ m.cap) (hpos : 0 < m.tail + sz)
    (hrep : m.tail + sz < 2 ^ 62) :
    ∃ fuel, ∀ fuel', fuel ≤ fuel' →
      ∃ g m', m.Allocate fuel' b sz = some (({ Offset := m.tail, Size := sz }, g), m') ∧
        m'.tail = m.tail + sz := by
  have hw : wrap64 (m.tail + sz) = m.tail + sz := wrap64_eq _ (by omega) (by omega)
  refine ⟨(m.tail + sz).toNat + 2, fun fuel' hle => ?_⟩
  obtain ⟨g, m1, hg, -, ht1, -⟩ :=
    Grow_returns (m.carved sz) b (m.tail + sz) hc hpos hrep fuel' hle
  refine ⟨g, m1, ?_, ?_⟩
  · rw [Allocate_tail m fuel' b sz ha, hw, hg]; rfl
  · rw [ht1]; exact hw

/-- A run of `Allocate` calls with positive sizes on an allocator with an empty free
list, the final tail staying below `2^62`: every call returns, and each section starts
where the previous one ended. -/
theorem allocateAll_spec : ∀ (reqs : List (Backing × Int)) (m : MMap),
    m.fl.released = [] → 0 ≤ m.cap → 0 ≤ m.tail → (∀ r ∈ reqs, 0 < r.2) →
    m.tail + (reqs.map Prod.snd).sum < 2 ^ 62 →
    ∀ fuel : Nat, (m.tail + (reqs.map Prod.snd).sum).toNat + 2 ≤ fuel →
    ∃ secs m', allocateAll fuel m reqs = some (secs, m') ∧
      secs.map Section.Size = reqs.map Prod.snd ∧
      (∀ s ∈ secs, m.tail ≤ s.Offset ∧ 0 < s.Size) ∧
      secs.Pairwise (fun a c => a.Offset + a.Size ≤ c.Offset) := by
  intro reqs
  induction reqs with
  | nil =>
    intro m _ _ _ _ _ fuel _
    exact ⟨[], m, rfl, rfl, by simp, List.Pairwise.nil⟩
  | cons r rest ih =>
    intro m hfl hc ht hpos hrep fuel hf
    have hr : 0 < r.2 := hpos r (List.mem_cons_self _ _)
    have hrest : ∀ q ∈ rest, 0 < q.2 := fun q hq => hpos q (List.mem_cons_of_mem _ hq)
    have hsum : 0 ≤ (rest.map Prod.snd).sum := by
      apply List.sum_nonneg
      intro x hx
      obtain ⟨q, hq, rfl⟩ := List.mem_map.1 hx
      exact le_of_lt (hrest q hq)
    simp only [List.map_cons, List.sum_cons] at hf hrep
    obtain ⟨g, m1, hA, hfl1, hc1, ht1⟩ :=
      Allocate_empty_freelist m r.1 r.2 hfl hc ht hr (by omega) fuel (by omega)
    obtain ⟨secs, m2, hrun, hsize, hoff, hpw⟩ :=
      ih m1 hfl1 hc1 (by omega) hrest (by rw [ht1]; omega) fuel (by rw [ht1]; omega)
    refine ⟨{ Offset := m.tail, Size := r.2 } :: secs, m2, ?_, ?_, ?_, ?_⟩
    · simp [allocateAll, hA, hrun]
    · simp [hsize]
    · intro s hs
      rcases List.mem_cons.1 hs with rfl | hs
      · exact ⟨le_refl _, hr⟩
      · have := hoff s hs
        exact ⟨by omega, this.2⟩
    · refine List.Pairwise.cons ?_ hpw
      intro s hs
      have := hoff s hs
      simp only
      omega

/-- Counterexample to C1: on a fresh allocator over an empty file, `Allocate(4)`,
`Allocate(2^63 - 1)` and `Allocate(1)` return sections at the offsets 0, 4 and
`-9223372036854775805`: the second call wraps the tail around, and the offsets are not
increasing. -/
theorem Allocate_sequence_wraps :
    (allocateAll 9 (NewMMap [])
        [(Backing.ok, 4), (Backing.ok, 2 ^ 63 - 1), (Backing.ok, 1)]).map
        (fun r => r.1.map Section.Offset)
      = some [0, 4, -9223372036854775805] := by
  decide

/-- C1 (amended): for every list of positive sizes whose total is below `2^62`, with any
outcome of the backing-store operations during each call, calling `Allocate` on each
size in turn on a fresh allocator returns one section per size, with strictly increasing
offsets and pairwise disjoint ranges `[Offset, Offset+Size)`. -/
theorem Allocate_sequence_increasing_disjoint (file : List Nat) (reqs : List (Backing × Int))
    (hpos : ∀ r ∈ reqs, 0 < r.2) (hsum : (reqs.map Prod.snd).sum < 2 ^ 62) :
    ∃ fuel, ∀ fuel', fuel ≤ fuel' →
      ∃ secs m', allocateAll fuel' (NewMMap file) reqs = some (secs, m') ∧
        secs.map Section.Size = reqs.map Prod.snd ∧
        secs.Pairwise (fun a c => a.Offset < c.Offset) ∧
        secs.Pairwise Section.disjoint := by
  refine ⟨((reqs.map Prod.snd).sum).toNat + 2, ?_⟩
  intro fuel' hle
  obtain ⟨secs, m', hrun, hsize, hoff, hpw⟩ :=
    allocateAll_spec reqs (NewMMap file) rfl (le_refl _) (le_refl _) hpos
      (by simpa [NewMMap] using hsum) fuel' (by simpa [NewMMap] using hle)
  refine ⟨secs, m', hrun, hsize, ?_, ?_⟩
  · refine List.Pairwise.imp_of_mem ?_ hpw
    intro a c ha _ hac
    have := (hoff a ha).2
    omega
  · exact hpw.imp (fun hac => Or.inl hac)

/-- Witness of C1 (amended): three requests, the second of which meets a failing backing
store. -/
theorem Allocate_sequence_increasing_disjoint_witness :
    ∃ fuel, ∀ fuel', fuel ≤ fuel' →
      ∃ secs m', allocateAll fuel' (NewMMap [])
          [(Backing.ok, 3), ({ Backing.ok with truncateOk := false }, 2), (Backing.ok, 1)]
          = some (secs, m') ∧
        secs.map Section.Size
          = [(Backing.ok, (3 : Int)), ({ Backing.ok with truncateOk := false }, 2),
              (Backing.ok, 1)].map Prod.snd ∧
        secs.Pairwise (fun a c => a.Offset < c.Offset) ∧
        secs.Pairwise Section.disjoint :=
  Allocate_sequence_increasing_disjoint []
    [(Backing.ok, 3), ({ Backing.ok with truncateOk := false }, 2), (Backing.ok, 1)]
    (by decide) (by decide)

/-- Counterexample to C2: releasing the section `{Offset: -1, Size: 1}` on a fresh
allocator and allocating 1 byte returns the section at offset 0 with `grew = true`, and
moves the tail from 0 to 1 and the capacity from 0 to 2. -/
theorem Release_sentinel_offset_not_reused :
    (((NewMMap []).Release { Offset := -1, Size := 1 }).Allocate 5 Backing.ok 1).map
        (fun r => (r.1.1, r.1.2, r.2.tail, r.2.cap))
      = some ({ Offset := 0, Size := 1 }, true, 1, 2) := by
  decide

/-- C2 (amended): for every allocator and every section `s` whose offset is not the
sentinel `-1`, `Release(s)` followed by `Allocate(s.Size)` returns `s` itself with
`grew = false` and leaves the allocator as it was before the release (tail and capacity
included), whatever the fuel and the backing store. -/
theorem Release_then_Allocate_reuses (m : MMap) (s : Section) (fuel : Nat) (b : Backing)
    (hs : s.Offset ≠ -1) :
    (m.Release s).Allocate fuel b s.Size = some ((s, false), m) := by
  simp [MMap.Release, MMap.Allocate, freelist.release, freelist.acquire, freelist.remove, hs]

/-- Witness of C2 (amended): the section `{Offset: 0, Size: 100}` on a fresh allocator. -/
theorem Release_then_Allocate_reuses_witness :
    ((NewMMap []).Release { Offset := 0, Size := 100 }).Allocate 0 Backing.ok 100
      = some (({ Offset := 0, Size := 100 }, false), NewMMap []) :=
  Release_then_Allocate_reuses (NewMMap []) { Offset := 0, Size := 100 } 0 Backing.ok
    (by decide)

/-- C3 (failing input): on a fresh allocator over an empty file, with the backing store
working, `Allocate(0)` never returns: the free list has no entry, the tail stays 0, and
the loop of `grow` doubles the capacity 0 for ever. -/
theorem Allocate_zero_fresh_never_returns (fuel : Nat) :
    ((NewMMap []).fl.acquire 0).1 = -1 ∧ (NewMMap []).Allocate fuel Backing.ok 0 = none := by
  refine ⟨rfl, ?_⟩
  rw [Allocate_tail (NewMMap []) fuel Backing.ok 0 rfl, Grow_eq,
    grow_eq _ _ _ _ (by decide) (by decide)]
  have hs : growStart ((NewMMap []).carved 0) (wrap64 ((NewMMap []).tail + 0)) = 0 := by
    decide
  rw [hs, doubling_diverges _ (by decide) fuel]
  rfl

/-- Counterexample to C6: on a fresh allocator over an empty file, `Allocate(100)` and
`Allocate(50)` leave capacity 200 and tail 150; the next `Allocate(50)` is carved at the
tail (offset 150), brings the tail to 200, exactly the prior capacity, and returns
`grew = true`. -/
theorem Allocate_to_capacity_grows :
    ((NewMMap []).Allocate 9 Backing.ok 100).bind (fun r1 =>
      (r1.2.Allocate 9 Backing.ok 50).bind (fun r2 =>
        (r2.2.Allocate 9 Backing.ok 50).map (fun r3 =>
          (r2.2.cap, r2.2.tail, r3.1.1, r3.2.tail, r3.1.2))))
      = some (200, 150, { Offset := 150, Size := 50 }, 200, true) := by
  decide

/-- Beyond `2^62` the tail path hangs: with capacity 8 and tail 4, `Allocate(2^62)`
never returns. -/
theorem Allocate_overflow_never_returns (fuel : Nat) :
    ({ (NewMMap []).remapped 8 with tail := 4 } : MMap).Allocate fuel Backing.ok (2 ^ 62)
      = none := by
  rw [Allocate_tail ({ (NewMMap []).remapped 8 with tail := 4 } : MMap) fuel Backing.ok
      (2 ^ 62) rfl, Grow_eq, grow_eq _ _ _ _ (by decide) (by decide)]
  have hw : wrap64 (({ (NewMMap []).remapped 8 with tail := 4 } : MMap).tail + 2 ^ 62)
      = 2 ^ 62 + 4 := by decide
  have hs : growStart (({ (NewMMap []).remapped 8 with tail := 4 } : MMap).carved (2 ^ 62))
      (2 ^ 62 + 4) = 8 := by decide
  rw [hw, hs, doubling_hangs (2 ^ 62 + 4) 61 8 (by decide) (by decide) fuel]
  rfl

/-- C6 (amended): with a positive capacity `c`, no free-list entry for `sz`, the backing
store working and a new tail (old tail + `sz`) that does not overflow and stays below
`2^62`, `Allocate(sz)` returns the section at the old tail, and `grew` is true if and
only if the new tail is at least `c`. -/
theorem Allocate_grew_iff (m : MMap) (b : Backing) (sz : Int) (hc : 0 < m.cap)
    (ha : (m.fl.acquire sz).1 = -1) (hb : b.succeeds) (hlo : -2 ^ 63 ≤ m.tail + sz)
    (hrep : m.tail + sz < 2 ^ 62) :
    ∃ fuel, ∀ fuel', fuel ≤ fuel' →
      ∃ g m', m.Allocate fuel' b sz = some (({ Offset := m.tail, Size := sz }, g), m') ∧
        m'.tail = m.tail + sz ∧ (g = true ↔ m.cap ≤ m.tail + sz) := by
  have hw : wrap64 (m.tail + sz) = m.tail + sz := wrap64_eq _ hlo (by omega)
  have htail : (m.carved sz).tail = m.tail + sz := hw
  by_cases h : m.tail + sz < m.cap
  · refine ⟨0, fun fuel' _ => ⟨false, m.carved sz, ?_, htail, ?_⟩⟩
    · rw [Allocate_tail m fuel' b sz ha, hw, Grow_eq,
        grow_below (m.carved sz) fuel' b (m.tail + sz) h]
      rfl
    · simp only [Bool.false_eq_true, false_iff]; omega
  · have hc' : 0 < (m.carved sz).cap := hc
    obtain ⟨k, hk, -, -⟩ :=
      doubling_spec (m.tail + sz) hrep ((m.tail + sz - m.cap + 1).toNat + 1)
        (m.carved sz).cap hc' (le_refl _)
    refine ⟨(m.tail + sz - m.cap + 1).toNat + 1, fun fuel' hle =>
      ⟨true, ((m.carved sz).remapped ((m.carved sz).cap * 2 ^ k)).notify, ?_, htail, ?_⟩⟩
    · have hd := doubling_mono _ _ _ _ hk fuel' hle
      rw [Allocate_tail m fuel' b sz ha, hw, Grow_eq,
        grow_of_doubling (m.carved sz) b (m.tail + sz) (by omega) (by simpa using h) hb
          fuel' _ hd]
      rfl
    · simp only [true_iff]; omega

/-- Witness of C6 (amended): capacity 200, tail 150, a request of 50 bytes. -/
theorem Allocate_grew_iff_witness :
    ∃ fuel, ∀ fuel', fuel ≤ fuel' →
      ∃ g m', ({ NewMMap [] with cap := 200, tail := 150 } : MMap).Allocate fuel' Backing.ok 50
          = some (({ Offset := 150, Size := 50 }, g), m') ∧
        m'.tail = 150 + 50 ∧ (g = true ↔ (200 : Int) ≤ 150 + 50) :=
  Allocate_grew_iff ({ NewMMap [] with cap := 200, tail := 150 } : MMap) Backing.ok 50
    (by decide) (by decide) (by decide) (by decide) (by decide)

/-! ## EnsureSize -/

/-- Whenever `EnsureSize(sz)` returns, the tail is the larger of the old tail and `sz`,
and listeners and call record are as before. -/
theorem EnsureSize_post {m m' : MMap} {fuel : Nat} {b : Backing} {sz : Int} {g : Bool}
    (h : m.EnsureSize fuel b sz = some (g, m')) :
    m'.tail = max m.tail sz ∧ m'.onGrow = m.onGrow ∧ m'.calls = m.calls := by
  unfold MMap.EnsureSize at h
  by_cases ht : m.tail ≥ sz
  · rw [if_pos ht] at h
    cases h
    exact ⟨(max_eq_left ht).symm, rfl, rfl⟩
  · rw [if_neg ht] at h
    obtain ⟨h1, -, h3, h4, -⟩ := grow_frame h
    have h1' : m'.tail = sz := h1
    exact ⟨by rw [h1']; exact (max_eq_right (by omega)).symm, h3, h4⟩

/-- With the tail already at `sz` or beyond, `EnsureSize(sz)` returns false at once. -/
theorem EnsureSize_noop (m : MMap) (fuel : Nat) (b : Backing) (sz : Int) (h : sz ≤ m.tail) :
    m.EnsureSize fuel b sz = some (false, m) := by
  unfold MMap.EnsureSize
  rw [if_pos h]

/-- Counterexample to C7: on a fresh allocator over an empty file, with the backing
store working, `EnsureSize(2^62)` never returns, whatever the fuel: the capacity starts
at the request `2^62`, wraps to `-2^63` and then to 0, and 0 is doubled for ever. -/
theorem EnsureSize_overflow_never_returns :
    ¬ ∃ fuel r, (NewMMap []).EnsureSize fuel Backing.ok (2 ^ 62) = some r := by
  rintro ⟨fuel, r, h⟩
  have h0 : (NewMMap []).EnsureSize fuel Backing.ok (2 ^ 62) = none := by
    unfold MMap.EnsureSize
    rw [if_neg (by decide), grow_eq _ _ _ _ (by decide) (by decide)]
    have hs : growStart ({ NewMMap [] with tail := 2 ^ 62 } : MMap) (2 ^ 62) = 2 ^ 62 := by
      decide
    rw [hs, doubling_hangs (2 ^ 62) 2 (2 ^ 62) (by decide) (by decide) fuel]
    rfl
  rw [h0] at h
  cases h

/-- C7 (amended): whenever `EnsureSize(sz)` returns, the tail equals `max(t, sz)`; when
`t >= sz` the call returns false and leaves the whole allocator (tail, capacity, buffer)
unchanged, whatever the fuel; and from every state whose tail and capacity are not
negative the call does return when `sz` is below `2^62`, for every large enough fuel. -/
theorem EnsureSize_tail_max (m : MMap) (b : Backing) (sz : Int) :
    (∀ fuel g m', m.EnsureSize fuel b sz = some (g, m') → m'.tail = max m.tail sz) ∧
    (sz ≤ m.tail → ∀ fuel, m.EnsureSize fuel b sz = some (false, m)) ∧
    (0 ≤ m.tail → 0 ≤ m.cap → sz < 2 ^ 62 → ∃ fuel, ∀ fuel', fuel ≤ fuel' →
      ∃ g m', m.EnsureSize fuel' b sz = some (g, m') ∧ m'.tail = max m.tail sz) := by
  refine ⟨fun fuel g m' h => (EnsureSize_post h).1,
    fun h fuel => EnsureSize_noop m fuel b sz h, ?_⟩
  intro ht hc hrep
  refine ⟨sz.toNat + 2, fun fuel' hle => ?_⟩
  by_cases h : sz ≤ m.tail
  · exact ⟨false, m, EnsureSize_noop m fuel' b sz h, (max_eq_left h).symm⟩
  · obtain ⟨g, m', hg, -⟩ :=
      grow_returns ({ m with tail := sz } : MMap) b sz hc (by omega) hrep fuel' hle
    have hE : m.EnsureSize fuel' b sz = some (g, m') := by
      unfold MMap.EnsureSize
      rw [if_neg (by simpa using h)]
      exact hg
    exact ⟨g, m', hE, (EnsureSize_post hE).1⟩

/-- Witness of C7 (amended): a fresh allocator over an empty file and `EnsureSize(4)`,
which returns with tail `max(0, 4)`. -/
theorem EnsureSize_tail_max_witness :
    (((NewMMap []).EnsureSize 5 Backing.ok 4).map (fun r => r.2.tail) = some 4) ∧
    ((4 : Int) ≤ ({ NewMMap [] with tail := 6 } : MMap).tail ∧
      ({ NewMMap [] with tail := 6 } : MMap).EnsureSize 0 Backing.ok 4
        = some (false, ({ NewMMap [] with tail := 6 } : MMap))) ∧
    (∃ fuel, ∀ fuel', fuel ≤ fuel' →
      ∃ g m', (NewMMap []).EnsureSize fuel' Backing.ok 4 = some (g, m') ∧
        m'.tail = max (NewMMap []).tail 4) :=
  ⟨by decide,
   ⟨by decide,
    (EnsureSize_tail_max ({ NewMMap [] with tail := 6 } : MMap) Backing.ok 4).2.1
      (by decide) 0⟩,
   (EnsureSize_tail_max (NewMMap []) Backing.ok 4).2.2 (by decide) (by decide) (by decide)⟩

/-- C8: after an `EnsureSize(n)` that returned, `EnsureSize(k)` with `k <= n` returns
`grew = false` and leaves the whole allocator, tail and capacity included, as the first
call left it, whatever the fuel and the backing store of the second call. -/
theorem EnsureSize_twice_idempotent (m m1 : MMap) (fuel : Nat) (b : Backing) (n k : Int)
    (g : Bool) (hk : k ≤ n) (h : m.EnsureSize fuel b n = some (g, m1)) (fuel2 : Nat)
    (b2 : Backing) : m1.EnsureSize fuel2 b2 k = some (false, m1) := by
  apply EnsureSize_noop
  rw [(EnsureSize_post h).1]
  exact le_trans hk (le_max_right _ _)

/-- Witness of C8: `EnsureSize(4)` then `EnsureSize(3)` on a fresh allocator over an
empty file. -/
theorem EnsureSize_twice_idempotent_witness :
    (((NewMMap []).carved 4).remapped 8).EnsureSize 0 Backing.ok 3
      = some (false, ((NewMMap []).carved 4).remapped 8) :=
  EnsureSize_twice_idempotent (NewMMap []) (((NewMMap []).carved 4).remapped 8) 5 Backing.ok
    4 3 true (by decide) (by decide) 0 Backing.ok

/-! ## Growth listeners -/

/-- A capacity produced by the loop exceeds `sz`. -/
theorem doubling_gt (sz : Int) : ∀ (fuel : Nat) (c r : Int), doubling fuel c sz = some r →
    sz < r := by
  intro fuel
  induction fuel with
  | zero => intro c r h; simp [doubling] at h
  | succ n ih =>
    intro c r h
    by_cases hc : c ≤ sz
    · simp only [doubling, hc, if_true] at h
      exact ih _ _ h
    · simp only [doubling, hc, if_false, Option.some.injEq] at h
      omega

/-- When `grow` reports growth, the request was not below the old capacity and the new
capacity exceeds it. -/
theorem grow_true {m m' : MMap} {fuel : Nat} {b : Backing} {sz : Int}
    (h : m.grow fuel b sz = some (true, m')) : m.cap ≤ sz ∧ sz < m'.cap := by
  by_cases h1 : sz < m.cap
  · rw [grow_below m fuel b sz h1] at h
    simp at h
  by_cases h2 : m.cap = 0 ∧ b.statOk = false
  · rw [grow_stat_fails m fuel b sz h2.1 h2.2] at h
    simp at h
  rw [grow_eq m fuel b sz h1 h2] at h
  cases hd : doubling fuel (growStart m sz) sz with
  | none => simp [hd] at h
  | some c =>
    simp only [hd, Option.map_some', Option.some.injEq] at h
    have hf := (growResult_frame m b c).2.2.2.2.2
    rw [h] at hf
    have := doubling_gt sz fuel _ c hd
    exact ⟨by omega, by rw [show m'.cap = c from hf]; exact this⟩

/-- Registering listeners one after the other appends them to `onGrow` in that order. -/
theorem foldl_OnGrow (fns : List OnGrowFn) : ∀ m : MMap,
    fns.foldl MMap.OnGrow m = { m with onGrow := m.onGrow ++ fns } := by
  induction fns with
  | nil => intro m; simp
  | cons fn rest ih => intro m; simp [List.foldl_cons, ih, MMap.OnGrow]

/-- C9: on an allocator on which the listeners `fns` were registered in that order with
`OnGrow` (after the listeners already present), a `Grow(sz)` that returns true has raised
the capacity above `sz` and has called exactly the registered listeners, each once, in
registration order, each one seeing the new capacity; a `Grow(sz)` that returns false
has called no listener. -/
theorem Grow_calls_listeners_in_order (m m' : MMap) (fns : List OnGrowFn) (fuel : Nat)
    (b : Backing) (sz : Int) (g : Bool)
    (h : (fns.foldl MMap.OnGrow m).Grow fuel b sz = some (g, m')) :
    (g = true → m.cap ≤ sz ∧ sz < m'.cap ∧
      m'.calls = m.calls ++ (m.onGrow ++ fns).map (fun fn => { fn := fn, cap := m'.cap })) ∧
    (g = false → m'.calls = m.calls) := by
  rw [foldl_OnGrow, Grow_eq] at h
  cases hg : MMap.grow { m with onGrow := m.onGrow ++ fns } fuel b sz with
  | none => simp [hg] at h
  | some r =>
    obtain ⟨g1, m1⟩ := r
    obtain ⟨-, -, hon, hcalls, -⟩ := grow_frame hg
    cases g1 with
    | false =>
      simp only [hg, Option.map_some', Bool.false_eq_true, if_false, Option.some.injEq,
        Prod.mk.injEq] at h
      obtain ⟨rfl, rfl⟩ := h
      exact ⟨fun hf => by simp at hf, fun _ => hcalls⟩
    | true =>
      simp only [hg, Option.map_some', if_true, Option.some.injEq, Prod.mk.injEq] at h
      obtain ⟨rfl, rfl⟩ := h
      have ht := grow_true hg
      refine ⟨fun _ => ⟨ht.1, ht.2, ?_⟩, fun hf => by simp at hf⟩
      simp only [MMap.notify]
      rw [hon, hcalls]

/-- Witness of C9: three listeners registered on a fresh allocator, then `Grow(4)`. -/
theorem Grow_calls_listeners_in_order_witness :
    (true = true → (NewMMap []).cap ≤ 4 ∧
        (4 : Int) < ((([1, 2, 3].foldl MMap.OnGrow (NewMMap [])).remapped 8).notify).cap ∧
      ((([1, 2, 3].foldl MMap.OnGrow (NewMMap [])).remapped 8).notify).calls
        = (NewMMap []).calls ++ ((NewMMap []).onGrow ++ [1, 2, 3]).map
            (fun fn => { fn := fn,
                         cap := ((([1, 2, 3].foldl MMap.OnGrow (NewMMap [])).remapped
                                  8).notify).cap })) ∧
    (true = false →
      ((([1, 2, 3].foldl MMap.OnGrow (NewMMap [])).remapped 8).notify).calls
        = (NewMMap []).calls) :=
  Grow_calls_listeners_in_order (NewMMap [])
    ((([1, 2, 3].foldl MMap.OnGrow (NewMMap [])).remapped 8).notify) [1, 2, 3] 5 Backing.ok 4
    true (by decide)

/-- C10 (failing input): with listener 7 registered on a fresh allocator over an empty
file, `EnsureSize(4)` grows the backing store (returns true, capacity 8) and calls no
listener, while `Grow(4)` on the same allocator calls listener 7. -/
theorem EnsureSize_grows_without_notifying :
    (((NewMMap []).OnGrow 7).EnsureSize 5 Backing.ok 4).map
        (fun r => (r.1, r.2.cap, r.2.onGrow, r.2.calls))
      = some (true, 8, [7], []) ∧
    (((NewMMap []).OnGrow 7).Grow 5 Backing.ok 4).map
        (fun r => (r.1, r.2.cap, r.2.onGrow, r.2.calls))
      = some (true, 8, [7], [{ fn := 7, cap := 8 }]) := by
  decide

/-! ## Close -/

/-- On an open allocator `Close` runs the three operations, returns nil and leaves the
handle and the buffer nil, with tail, capacity and free list as they were. -/
theorem Close_open (m : MMap) (b : Backing) (h : m.f = true) :
    (m.Close b).err = none ∧
    (m.Close b).performed = [StoreOp.flush, StoreOp.unmap, StoreOp.close] ∧
    (m.Close b).m = { m with mm := none, f := false } := by
  simp [MMap.Close, h]

/-- After any `Close` the file handle is nil. -/
theorem Close_handle_nil (m : MMap) (b : Backing) : (m.Close b).m.f = false := by
  unfold MMap.Close
  by_cases h : m.f = false
  · simp [h]
  · simp [h]

/-- C11 (failing input): on an open allocator with a mapped buffer, a `Close` during
which `Flush` and `Unmap` both fail pushes both failures on its local list and returns
nil; on every open allocator `Close` returns nil whatever fails. -/
theorem Close_returns_nil_despite_failures :
    (((NewMMap []).remapped 8).Close
        { Backing.ok with flushOk := false, unmapOk := false }).err = none ∧
    (((NewMMap []).remapped 8).Close
        { Backing.ok with flushOk := false, unmapOk := false }).errs
      = [StoreOp.flush, StoreOp.unmap] ∧
    ∀ (m : MMap) (b : Backing), m.f = true → (m.Close b).err = none := by
  refine ⟨by decide, by decide, fun m b h => (Close_open m b h).1⟩

/-- Counterexample to C13: on a fresh allocator over an empty file, `Allocate(100)`
followed by `Close` and then `Allocate(50)`, `Grow(50)`, `EnsureSize(50)` and `Get(0, 0)`:
each call after the `Close` returns a normal result, the section `{100, 50}` with
`grew = false`, `grew = false` twice, and the empty byte range. -/
theorem Allocate_after_Close_returns_section :
    ((NewMMap []).Allocate 9 Backing.ok 100).map (fun r =>
      (((r.2.Close Backing.ok).m.Allocate 9 Backing.ok 50).map (fun x => x.1),
       ((r.2.Close Backing.ok).m.Grow 9 Backing.ok 50).map (fun x => x.1),
       ((r.2.Close Backing.ok).m.EnsureSize 9 Backing.ok 50).map (fun x => x.1),
       (r.2.Close Backing.ok).m.Get 0 0))
      = some (some ({ Offset := 100, Size := 50 }, false), some false, some false,
          some []) := by
  decide

/-- C13 (amended): after a `Close` that has run on an open allocator, a later `Close`
fails with the closed-resource error, while the other operations make no closed check and
answer every request that needs no growth as on an open allocator: `Grow(sz)` below the
capacity and `EnsureSize(sz)` within the tail return false, `Allocate(sz)` returns the
section found in the free list, or the section at the tail when the new tail is below
the capacity, with `grew = false` (the new tail is the old tail plus `sz` in `int64`
arithmetic); `Get` slices the nil buffer, which gives the empty range for offset 0 and
size 0 and a panic for every other range. -/
theorem operations_after_Close (m c : MMap) (b b2 : Backing) (fuel : Nat) (sz : Int)
    (hopen : m.f = true) (hc : c = (m.Close b).m) :
    (c.tail = m.tail ∧ c.cap = m.cap ∧ c.fl = m.fl) ∧
    (c.Close b2).err = some Error.ErrIsClosed ∧
    (sz < c.cap → c.Grow fuel b2 sz = some (false, c)) ∧
    (sz ≤ c.tail → c.EnsureSize fuel b2 sz = some (false, c)) ∧
    ((c.fl.acquire sz).1 ≠ -1 →
      c.Allocate fuel b2 sz
        = some (({ Offset := (c.fl.acquire sz).1, Size := sz }, false),
            { c with fl := (c.fl.acquire sz).2 })) ∧
    ((c.fl.acquire sz).1 = -1 → wrap64 (c.tail + sz) < c.cap →
      c.Allocate fuel b2 sz = some (({ Offset := c.tail, Size := sz }, false), c.carved sz)) ∧
    c.Get 0 0 = some [] ∧
    (∀ offset n : Int, ¬ (offset = 0 ∧ n = 0) → c.Get offset n = none) := by
  have hcm := (Close_open m b hopen).2.2
  rw [← hc] at hcm
  have hf : c.f = false := by rw [hcm]
  have hmm : c.mm = none := by rw [hcm]
  refine ⟨by rw [hcm]; exact ⟨rfl, rfl, rfl⟩, ?_, ?_, ?_, ?_, ?_, ?_, ?_⟩
  · simp [MMap.Close, hf]
  · intro h
    rw [Grow_eq, grow_below c fuel b2 sz h]; rfl
  · intro h
    exact EnsureSize_noop c fuel b2 sz h
  · intro h
    simp [MMap.Allocate, h]
  · intro h1 h2
    rw [Allocate_tail c fuel b2 sz h1, Grow_eq, grow_below (c.carved sz) fuel b2 _ h2]
    rfl
  · simp [MMap.Get, hmm]
  · intro offset n hne
    simp only [MMap.Get, hmm, Option.getD_none, List.length_nil, Nat.cast_zero]
    rw [if_neg]
    intro h
    exact hne ⟨by omega, by omega⟩

/-- Witness of C13 (amended): an allocator with capacity 200, tail 100 and a mapped
buffer is closed; then 50 bytes are requested. -/
theorem operations_after_Close_witness :
    ((({ (NewMMap []).remapped 200 with tail := 100 } : MMap).Close Backing.ok).m.Allocate 0
        Backing.ok 50).map (fun r => r.1)
      = some ({ Offset := 100, Size := 50 }, false) :=
  by
    have h := (operations_after_Close ({ (NewMMap []).remapped 200 with tail := 100 } : MMap)
      _ Backing.ok Backing.ok 0 50 (by decide) rfl).2.2.2.2.2.1 (by decide) (by decide)
    rw [h]; rfl

/-- C14: a `Close` called after an earlier `Close` returns `ErrIsClosed`, runs no flush,
unmap or file close, pushes nothing, and leaves the allocator exactly as the earlier
`Close` left it. -/
theorem Close_twice (m : MMap) (b b2 : Backing) :
    (m.Close b).m.Close b2
      = { err := some Error.ErrIsClosed, performed := [], errs := [], m := (m.Close b).m } := by
  have h := Close_handle_nil m b
  generalize (m.Close b).m = c at h
  simp [MMap.Close, h]

/-! ## Failing growth, growth from capacity zero, monotonicity -/

/-- The three ways in which `grow` returns. -/
theorem grow_cases {m m' : MMap} {fuel : Nat} {b : Backing} {sz : Int} {g : Bool}
    (h : m.grow fuel b sz = some (g, m')) :
    (sz < m.cap ∧ g = false ∧ m' = m) ∨
    (¬ sz < m.cap ∧ (m.cap = 0 ∧ b.statOk = false) ∧ g = false ∧ m' = m) ∨
    (¬ sz < m.cap ∧ ¬ (m.cap = 0 ∧ b.statOk = false) ∧
      ∃ c, doubling fuel (growStart m sz) sz = some c ∧ growResult m b c = (g, m')) := by
  by_cases h1 : sz < m.cap
  · rw [grow_below m fuel b sz h1] at h
    simp only [Option.some.injEq, Prod.mk.injEq] at h
    exact Or.inl ⟨h1, h.1.symm, h.2.symm⟩
  by_cases h2 : m.cap = 0 ∧ b.statOk = false
  · rw [grow_stat_fails m fuel b sz h2.1 h2.2] at h
    simp only [Option.some.injEq, Prod.mk.injEq] at h
    exact Or.inr (Or.inl ⟨h1, h2, h.1.symm, h.2.symm⟩)
  rw [grow_eq m fuel b sz h1 h2] at h
  cases hd : doubling fuel (growStart m sz) sz with
  | none => simp [hd] at h
  | some c =>
    simp only [hd, Option.map_some', Option.some.injEq] at h
    exact Or.inr (Or.inr ⟨h1, h2, c, rfl, h⟩)

/-- Whenever `grow` returns, the capacity has not decreased: past the early returns the
loop only stops above `sz`, which is not below the old capacity. -/
theorem grow_cap_mono {m m' : MMap} {fuel : Nat} {b : Backing} {sz : Int} {g : Bool}
    (h : m.grow fuel b sz = some (g, m')) : m.cap ≤ m'.cap := by
  rcases grow_cases h with ⟨-, -, rfl⟩ | ⟨-, -, -, rfl⟩ | ⟨h1, -, c, hd, hr⟩
  · exact le_refl _
  · exact le_refl _
  · have hf := (growResult_frame m b c).2.2.2.2.2
    rw [hr] at hf
    have h2 := doubling_gt sz fuel _ c hd
    have hf' : m'.cap = c := hf
    omega

/-- Whenever `grow` returns without a failed `Stat`, the capacity exceeds `sz`. -/
theorem grow_cap_gt {m m' : MMap} {fuel : Nat} {b : Backing} {sz : Int} {g : Bool}
    (h : m.grow fuel b sz = some (g, m')) (hs : ¬ (m.cap = 0 ∧ b.statOk = false)) :
    sz < m'.cap := by
  rcases grow_cases h with ⟨h1, -, rfl⟩ | ⟨-, h2, -, -⟩ | ⟨-, -, c, hd, hr⟩
  · exact h1
  · exact absurd h2 hs
  · have hf := (growResult_frame m b c).2.2.2.2.2
    rw [hr] at hf
    have hf' : m'.cap = c := hf
    have := doubling_gt sz fuel _ c hd
    omega

/-- The remapping reports no growth when `Unmap` of a mapped buffer, `Truncate` or `Map`
fails. -/
theorem growResult_fails (m : MMap) (b : Backing) (c : Int)
    (h : (m.mm ≠ none ∧ b.unmapOk = false) ∨ b.truncateOk = false ∨ b.mapOk = false) :
    (growResult m b c).1 = false := by
  unfold growResult MMap.unmap
  cases hm : m.mm <;> cases hu : b.unmapOk <;> cases ht : b.truncateOk <;>
    cases hp : b.mapOk <;> simp_all

/-- A growth that meets a failing backing-store operation returns false; the capacity
is the old one after a failed `Stat` and exceeds `sz` after any other failure. -/
theorem grow_fails {m m' : MMap} {fuel : Nat} {b : Backing} {sz : Int} {g : Bool}
    (hfail : growFails m b) (htrig : m.cap ≤ sz) (h : m.grow fuel b sz = some (g, m')) :
    g = false ∧ ((m.cap = 0 ∧ b.statOk = false) → m'.cap = m.cap) ∧
      (¬ (m.cap = 0 ∧ b.statOk = false) → sz < m'.cap) := by
  rcases grow_cases h with ⟨h1, -, -⟩ | ⟨-, hs, hg, rfl⟩ | ⟨-, h2, c, hd, hr⟩
  · omega
  · exact ⟨hg, fun _ => rfl, fun hn => absurd hs hn⟩
  · refine ⟨?_, fun hn => absurd hn h2, fun _ => grow_cap_gt h h2⟩
    have hf : (m.mm ≠ none ∧ b.unmapOk = false) ∨ b.truncateOk = false ∨ b.mapOk = false := by
      rcases hfail with hs | hrest
      · exact absurd hs h2
      · exact hrest
    have := growResult_fails m b c hf
    rw [hr] at this
    exact this

/-- Whatever `Grow` returns is what `grow` returned, notified when it grew. -/
theorem Grow_cases {m m' : MMap} {fuel : Nat} {b : Backing} {sz : Int} {g : Bool}
    (h : m.Grow fuel b sz = some (g, m')) :
    ∃ m1, m.grow fuel b sz = some (g, m1) ∧ m' = if g = true then m1.notify else m1 := by
  rw [Grow_eq] at h
  cases hg : m.grow fuel b sz with
  | none => simp [hg] at h
  | some r =>
    obtain ⟨g1, m1⟩ := r
    cases g1 with
    | false =>
      simp only [hg, Option.map_some', Bool.false_eq_true, if_false, Option.some.injEq,
        Prod.mk.injEq] at h
      obtain ⟨rfl, rfl⟩ := h
      exact ⟨m1, rfl, rfl⟩
    | true =>
      simp only [hg, Option.map_some', if_true, Option.some.injEq, Prod.mk.injEq] at h
      obtain ⟨rfl, rfl⟩ := h
      exact ⟨m1, rfl, rfl⟩

/-- Whenever `Grow` returns, the capacity has not decreased. -/
theorem Grow_cap_mono {m m' : MMap} {fuel : Nat} {b : Backing} {sz : Int} {g : Bool}
    (h : m.Grow fuel b sz = some (g, m')) : m.cap ≤ m'.cap := by
  obtain ⟨m1, hg, rfl⟩ := Grow_cases h
  have := grow_cap_mono hg
  cases g <;> simpa [MMap.notify] using this

/-- A `Grow` that meets a failing backing-store operation: see `grow_fails`. -/
theorem Grow_fails {m m' : MMap} {fuel : Nat} {b : Backing} {sz : Int} {g : Bool}
    (hfail : growFails m b) (htrig : m.cap ≤ sz) (h : m.Grow fuel b sz = some (g, m')) :
    g = false ∧ m'.tail = m.tail ∧ ((m.cap = 0 ∧ b.statOk = false) → m'.cap = m.cap) ∧
      (¬ (m.cap = 0 ∧ b.statOk = false) → sz < m'.cap) := by
  obtain ⟨m1, hg, rfl⟩ := Grow_cases h
  obtain ⟨hf, h1, h2⟩ := grow_fails hfail htrig hg
  subst hf
  exact ⟨rfl, (grow_frame hg).1, h1, h2⟩

/-- Counterexample to C12: on a fresh allocator over an empty file (capacity 0, tail 0)
with a failing `Truncate`, `Grow(4)`, `EnsureSize(4)` and `Allocate(4)` each return
`grew = false` and leave the capacity at 8; `EnsureSize` and `Allocate` leave the tail
at 4. -/
theorem failed_growth_changes_capacity_and_tail :
    ((NewMMap []).Grow 5 { Backing.ok with truncateOk := false } 4).map
        (fun r => (r.1, r.2.cap, r.2.tail)) = some (false, 8, 0) ∧
    ((NewMMap []).EnsureSize 5 { Backing.ok with truncateOk := false } 4).map
        (fun r => (r.1, r.2.cap, r.2.tail)) = some (false, 8, 4) ∧
    ((NewMMap []).Allocate 5 { Backing.ok with truncateOk := false } 4).map
        (fun r => (r.1.2, r.2.cap, r.2.tail)) = some (false, 8, 4) := by
  decide

/-- C12 (amended): when a growth triggered by `Grow(sz)`, `EnsureSize(sz)` or
`Allocate(sz)` meets a failing backing-store operation, the call reports `grew = false`;
the tail is unchanged by `Grow`, equals `sz` after `EnsureSize` and the old tail plus
`sz` (in `int64` arithmetic) after `Allocate`; and the capacity is unchanged when the
failing operation is `Stat`. -/
theorem failed_growth_effects (m : MMap) (b : Backing) (sz : Int) (fuel : Nat)
    (hfail : growFails m b) :
    (∀ g m', m.cap ≤ sz → m.Grow fuel b sz = some (g, m') →
      g = false ∧ m'.tail = m.tail ∧ ((m.cap = 0 ∧ b.statOk = false) → m'.cap = m.cap)) ∧
    (∀ g m', m.tail < sz → m.cap ≤ sz → m.EnsureSize fuel b sz = some (g, m') →
      g = false ∧ m'.tail = sz ∧ ((m.cap = 0 ∧ b.statOk = false) → m'.cap = m.cap)) ∧
    (∀ s g m', (m.fl.acquire sz).1 = -1 → m.cap ≤ wrap64 (m.tail + sz) →
      m.Allocate fuel b sz = some ((s, g), m') →
      g = false ∧ m'.tail = wrap64 (m.tail + sz) ∧
        ((m.cap = 0 ∧ b.statOk = false) → m'.cap = m.cap)) := by
  refine ⟨fun g m' htrig h => ?_, ?_, ?_⟩
  · obtain ⟨h1, h2, h3, -⟩ := Grow_fails hfail htrig h
    exact ⟨h1, h2, h3⟩
  · intro g m' ht htrig h
    unfold MMap.EnsureSize at h
    rw [if_neg (by omega)] at h
    have hfail' : growFails ({ m with tail := sz } : MMap) b := hfail
    obtain ⟨hg, h1, -⟩ := grow_fails hfail' htrig h
    exact ⟨hg, (grow_frame h).1, h1⟩
  · intro s g m' ha htrig h
    rw [Allocate_tail m fuel b sz ha] at h
    cases hG : (m.carved sz).Grow fuel b (wrap64 (m.tail + sz)) with
    | none => simp [hG] at h
    | some r =>
      obtain ⟨g1, m1⟩ := r
      simp only [hG, Option.map_some', Option.some.injEq, Prod.mk.injEq] at h
      obtain ⟨⟨-, rfl⟩, rfl⟩ := h
      have hfail' : growFails (m.carved sz) b := hfail
      obtain ⟨h1, h2, h3, -⟩ := Grow_fails hfail' htrig hG
      exact ⟨h1, h2, h3⟩

/-- Witness of C12 (amended): `EnsureSize(4)` on a fresh allocator over an empty file,
with a failing `Truncate`: it returns false with the tail at 4. -/
theorem failed_growth_effects_witness :
    false = false ∧ ({ NewMMap [] with cap := 8, tail := 4 } : MMap).tail = 4 ∧
      (((NewMMap []).cap = 0 ∧
          ({ Backing.ok with truncateOk := false } : Backing).statOk = false) →
        ({ NewMMap [] with cap := 8, tail := 4 } : MMap).cap = (NewMMap []).cap) :=
  (failed_growth_effects (NewMMap []) { Backing.ok with truncateOk := false } 4 5
    (Or.inr (Or.inr (Or.inl rfl)))).2.1 false { NewMMap [] with cap := 8, tail := 4 }
    (by decide) (by decide) (by decide)

/-- Past the capacity check and with a working backing store, `grow` returns true at
the capacity the loop produces from its start capacity. -/
theorem grow_ok_of_doubling (m : MMap) (b : Backing) (sz : Int) (h1 : ¬ sz < m.cap)
    (hb : b.succeeds) (fuel : Nat) (c : Int)
    (hd : doubling fuel (growStart m sz) sz = some c) :
    m.grow fuel b sz = some (true, m.remapped c) := by
  have hs : ¬ (m.cap = 0 ∧ b.statOk = false) := by
    intro h
    have := hb.1
    rw [h.2] at this
    exact Bool.false_ne_true this
  rw [grow_eq m fuel b sz h1 hs, hd]
  simp [growResult_ok m b _ hb]

/-- From capacity zero, a positive request and a working backing store: when the least
doubling of the start capacity that exceeds `sz` fits in `int64`, `Grow` returns true
with that capacity. -/
theorem Grow_zero_cap (m : MMap) (b : Backing) (sz : Int) (hc : m.cap = 0) (hsz : 0 < sz)
    (hb : b.succeeds) :
    ∃ k : Nat, sz < growStart m sz * 2 ^ k ∧
      (∀ j : Nat, sz < growStart m sz * 2 ^ j → k ≤ j) ∧
      (growStart m sz * 2 ^ k < 2 ^ 63 → ∀ fuel', k + 1 ≤ fuel' →
        m.Grow fuel' b sz = some (true, (m.remapped (growStart m sz * 2 ^ k)).notify)) := by
  have hp := growStart_pos m sz (by omega) hsz
  obtain ⟨k, hlt, hmin⟩ := exists_least_doubling (growStart m sz) sz hp
  refine ⟨k, hlt, ?_, ?_⟩
  · intro j hj
    by_contra hlt'
    have := hmin j (by omega)
    omega
  · intro hrep fuel' hle
    have hd := doubling_exact sz k fuel' (growStart m sz) hp hle hmin hlt hrep
    rw [Grow_eq, grow_ok_of_doubling m b sz (by omega) hb fuel' _ hd]
    rfl

/-- Counterexample to C16: on a fresh allocator over an empty file, with the backing
store working, `Grow(2^62)` never returns, whatever the fuel: the base is the request
`2^62`, whose double `2^63` is not an `int64`; the capacity wraps to `-2^63` and then to
0, and 0 is doubled for ever. -/
theorem Grow_fresh_overflow_never_returns :
    ¬ ∃ fuel r, (NewMMap []).Grow fuel Backing.ok (2 ^ 62) = some r := by
  rintro ⟨fuel, r, h⟩
  have h0 : (NewMMap []).Grow fuel Backing.ok (2 ^ 62) = none := by
    rw [Grow_eq, grow_eq _ _ _ _ (by decide) (by decide)]
    have hs : growStart (NewMMap []) (2 ^ 62) = 2 ^ 62 := by decide
    rw [hs, doubling_hangs (2 ^ 62) 2 (2 ^ 62) (by decide) (by decide) fuel]
    rfl
  rw [h0] at h
  cases h

/-- C16 (amended): on an allocator with capacity 0 (a fresh one in particular), a
request `sz > 0` and a working backing store, let `base` be the size of the backing
file when that is non-zero and `sz` when the file is empty, and `k` the least natural
number with `base * 2^k > sz`; when `base * 2^k` fits in `int64` (`base * 2^k < 2^63`),
`Grow(sz)` returns true and sets the capacity to `base * 2^k`; and on an empty file
`Allocate(100)` returns `{Offset 0, Size 100}` with `grew = true` and a capacity of at
least 100. -/
theorem Grow_from_zero_capacity (m : MMap) (b : Backing) (sz base : Int) (hc : m.cap = 0)
    (hsz : 0 < sz) (hb : b.succeeds)
    (hbase : base = if (m.file.length : Int) = 0 then sz else (m.file.length : Int)) :
    (∃ k : Nat, sz < base * 2 ^ k ∧ (∀ j : Nat, sz < base * 2 ^ j → k ≤ j) ∧
      (base * 2 ^ k < 2 ^ 63 →
        ∃ fuel, ∀ fuel', fuel ≤ fuel' →
          ∃ m', m.Grow fuel' b sz = some (true, m') ∧ m'.cap = base * 2 ^ k)) ∧
    (∃ fuel, ∀ fuel', fuel ≤ fuel' →
      ∃ m', (NewMMap []).Allocate fuel' b 100
          = some (({ Offset := 0, Size := 100 }, true), m') ∧ 100 ≤ m'.cap) := by
  have hstart : growStart m sz = base := by
    rw [hbase]; simp [growStart, hc]
  constructor
  · obtain ⟨k, hlt, hmin, hrun⟩ := Grow_zero_cap m b sz hc hsz hb
    rw [hstart] at hlt hmin hrun
    exact ⟨k, hlt, hmin, fun hrep => ⟨k + 1, fun fuel' hle => ⟨_, hrun hrep fuel' hle, rfl⟩⟩⟩
  · obtain ⟨k, hlt, hmin, hrun⟩ :=
      Grow_zero_cap ((NewMMap []).carved 100) b 100 rfl (by decide) hb
    have hgs : growStart ((NewMMap []).carved 100) 100 = 100 := by decide
    rw [hgs] at hlt hmin hrun
    have hk : k ≤ 1 := hmin 1 (by decide)
    have hrep : (100 : Int) * 2 ^ k < 2 ^ 63 := by
      interval_cases k <;> decide
    refine ⟨k + 1, fun fuel' hle =>
      ⟨(((NewMMap []).carved 100).remapped (100 * 2 ^ k)).notify, ?_, ?_⟩⟩
    · rw [Allocate_tail (NewMMap []) fuel' b 100 rfl]
      have hG : ((NewMMap []).carved 100).Grow fuel' b (wrap64 ((NewMMap []).tail + 100))
          = some (true, (((NewMMap []).carved 100).remapped (100 * 2 ^ k)).notify) :=
        hrun hrep fuel' hle
      rw [hG]
      rfl
    · exact le_of_lt hlt

/-- Witness of C16 (amended): a fresh allocator over a file of 3 bytes and a request of
4 bytes; the base is 3. -/
theorem Grow_from_zero_capacity_witness :
    (∃ k : Nat, (4 : Int) < 3 * 2 ^ k ∧ (∀ j : Nat, (4 : Int) < 3 * 2 ^ j → k ≤ j) ∧
      ((3 : Int) * 2 ^ k < 2 ^ 63 →
        ∃ fuel, ∀ fuel', fuel ≤ fuel' →
          ∃ m', (NewMMap [7, 7, 7]).Grow fuel' Backing.ok 4 = some (true, m') ∧
            m'.cap = 3 * 2 ^ k)) ∧
    (∃ fuel, ∀ fuel', fuel ≤ fuel' →
      ∃ m', (NewMMap []).Allocate fuel' Backing.ok 100
          = some (({ Offset := 0, Size := 100 }, true), m') ∧ 100 ≤ m'.cap) :=
  Grow_from_zero_capacity (NewMMap [7, 7, 7]) Backing.ok 4 3 rfl (by decide) (by decide)
    (by decide)

/-- C18 (failing input): on a fresh allocator over an empty file, with the backing
store working, `Grow(0)` never returns: `Stat` reports size 0, the capacity becomes the
requested size 0, and the loop doubles 0 for ever. -/
theorem Grow_zero_fresh_never_returns (fuel : Nat) :
    (NewMMap []).Grow fuel Backing.ok 0 = none := by
  rw [Grow_eq, grow_eq _ _ _ _ (by decide) (by decide)]
  have hs : growStart (NewMMap []) 0 = 0 := by decide
  rw [hs, doubling_diverges _ (le_refl _) fuel]
  rfl

/-- Whenever `Allocate` returns, the capacity has not decreased; nor has the tail when
the requested size is not negative and the new tail does not overflow. -/
theorem Allocate_mono {m m' : MMap} {fuel : Nat} {b : Backing} {sz : Int}
    {r : Section × Bool} (h : m.Allocate fuel b sz = some (r, m')) :
    m.cap ≤ m'.cap ∧ (0 ≤ sz → -2 ^ 63 ≤ m.tail → m.tail + sz < 2 ^ 63 → m.tail ≤ m'.tail) := by
  by_cases ha : (m.fl.acquire sz).1 = -1
  · rw [Allocate_tail m fuel b sz ha] at h
    cases hG : (m.carved sz).Grow fuel b (wrap64 (m.tail + sz)) with
    | none => simp [hG] at h
    | some x =>
      obtain ⟨g1, m1⟩ := x
      simp only [hG, Option.map_some', Option.some.injEq, Prod.mk.injEq] at h
      obtain ⟨-, rfl⟩ := h
      have ht : m1.tail = wrap64 (m.tail + sz) := (Grow_frame hG).1
      have hc : (m.carved sz).cap ≤ m1.cap := Grow_cap_mono hG
      refine ⟨hc, fun hsz hlo hhi => ?_⟩
      rw [ht, wrap64_eq _ (by omega) hhi]
      omega
  · simp only [MMap.Allocate, ne_eq, ha, not_false_eq_true, if_true, Option.some.injEq,
      Prod.mk.injEq] at h
    obtain ⟨-, rfl⟩ := h
    exact ⟨le_refl _, fun _ _ _ => le_refl _⟩

/-- Whenever `EnsureSize` returns, tail and capacity have not decreased. -/
theorem EnsureSize_mono {m m' : MMap} {fuel : Nat} {b : Backing} {sz : Int} {g : Bool}
    (h : m.EnsureSize fuel b sz = some (g, m')) : m.tail ≤ m'.tail ∧ m.cap ≤ m'.cap := by
  refine ⟨by rw [(EnsureSize_post h).1]; exact le_max_left _ _, ?_⟩
  unfold MMap.EnsureSize at h
  by_cases ht : m.tail ≥ sz
  · rw [if_pos ht] at h
    cases h
    exact le_refl _
  · rw [if_neg ht] at h
    have hc : ({ m with tail := sz } : MMap).cap ≤ m'.cap := grow_cap_mono h
    exact hc

/-- Counterexample to C19: on a fresh allocator over an empty file `Allocate(4)` leaves
the tail at 4; `Allocate(2^63 - 1)`, a size that is not negative, then returns and
leaves the tail at `-9223372036854775805`: the tail has decreased. -/
theorem Allocate_overflow_decreases_tail :
    ((NewMMap []).Allocate 9 Backing.ok 4).bind (fun r =>
      (r.2.Allocate 9 Backing.ok (2 ^ 63 - 1)).map (fun r2 => (r.2.tail, r2.2.tail)))
      = some (4, -9223372036854775805) := by
  decide

/-- C19 (amended): for every allocator state, whenever a call of `Grow`, `EnsureSize` or
`Allocate` returns, the capacity after it is at least the capacity before it; so is the
tail after `Grow` and `EnsureSize`, and after an `Allocate` with `sz >= 0` whose new
tail (old tail + `sz`) does not overflow `int64`; `Release` leaves both exactly
unchanged; and from every state with non-negative tail and capacity the three calls do
return when `sz > 0` and the new tail stays below `2^62`, for every large enough fuel. -/
theorem tail_and_capacity_never_decrease (m : MMap) (b : Backing) (sz : Int)
    (hsz : 0 ≤ sz) :
    (∀ fuel g m', m.Grow fuel b sz = some (g, m') → m.tail ≤ m'.tail ∧ m.cap ≤ m'.cap) ∧
    (∀ fuel g m', m.EnsureSize fuel b sz = some (g, m') →
      m.tail ≤ m'.tail ∧ m.cap ≤ m'.cap) ∧
    (∀ fuel r m', m.Allocate fuel b sz = some (r, m') →
      m.cap ≤ m'.cap ∧ (-2 ^ 63 ≤ m.tail → m.tail + sz < 2 ^ 63 → m.tail ≤ m'.tail)) ∧
    (∀ s, (m.Release s).tail = m.tail ∧ (m.Release s).cap = m.cap) ∧
    (0 ≤ m.tail → 0 ≤ m.cap → 0 < sz → m.tail + sz < 2 ^ 62 →
      ∃ fuel, ∀ fuel', fuel ≤ fuel' →
        (m.Grow fuel' b sz).isSome = true ∧ (m.EnsureSize fuel' b sz).isSome = true ∧
          (m.Allocate fuel' b sz).isSome = true) := by
  refine ⟨?_, fun fuel g m' h => EnsureSize_mono h, ?_, fun s => ⟨rfl, rfl⟩, ?_⟩
  · intro fuel g m' h
    exact ⟨le_of_eq (Grow_frame h).1.symm, Grow_cap_mono h⟩
  · intro fuel r m' h
    exact ⟨(Allocate_mono h).1, (Allocate_mono h).2 hsz⟩
  · intro ht hc hpos hrep
    have hw : wrap64 (m.tail + sz) = m.tail + sz := wrap64_eq _ (by omega) (by omega)
    refine ⟨(m.tail + sz).toNat + 2, fun fuel' hle => ⟨?_, ?_, ?_⟩⟩
    · obtain ⟨g, m', hG, -⟩ := Grow_returns m b sz hc hpos (by omega) fuel' (by omega)
      rw [hG]; rfl
    · by_cases h : sz ≤ m.tail
      · rw [EnsureSize_noop m fuel' b sz h]; rfl
      · obtain ⟨g, m', hg, -⟩ :=
          grow_returns ({ m with tail := sz } : MMap) b sz hc hpos (by omega) fuel'
            (by omega)
        unfold MMap.EnsureSize
        rw [if_neg (by simpa using h)]
        rw [hg]; rfl
    · by_cases ha : (m.fl.acquire sz).1 = -1
      · obtain ⟨g, m1, hg, -⟩ :=
          Grow_returns (m.carved sz) b (m.tail + sz) hc (by omega) hrep fuel' hle
        rw [Allocate_tail m fuel' b sz ha, hw, hg]; rfl
      · simp [MMap.Allocate, ha]

/-- Witness of C19 (amended): a fresh allocator over an empty file and calls with 4
bytes. -/
theorem tail_and_capacity_never_decrease_witness :
    ((NewMMap []).tail ≤ ((NewMMap []).remapped 8).notify.tail ∧
      (NewMMap []).cap ≤ ((NewMMap []).remapped 8).notify.cap) ∧
    (∃ fuel, ∀ fuel', fuel ≤ fuel' →
      ((NewMMap []).Grow fuel' Backing.ok 4).isSome = true ∧
        ((NewMMap []).EnsureSize fuel' Backing.ok 4).isSome = true ∧
        ((NewMMap []).Allocate fuel' Backing.ok 4).isSome = true) :=
  ⟨(tail_and_capacity_never_decrease (NewMMap []) Backing.ok 4 (by decide)).1 5 true
      ((NewMMap []).remapped 8).notify (by decide),
   (tail_and_capacity_never_decrease (NewMMap []) Backing.ok 4 (by decide)).2.2.2.2
      (by decide) (by decide) (by decide) (by decide)⟩

/-! ## The invariant along runs of calls -/

/-- Truncation gives the file exactly the requested length. -/
theorem truncate_length (file : List Nat) (n : Int) : (truncate file n).length = n.toNat := by
  simp only [truncate, List.length_append, List.length_take, List.length_replicate]
  omega

/-- With a working backing store, whenever `grow` returns from a state whose buffer is as
long as its non-negative capacity, the tail is untouched, the capacity exceeds `sz` and
has not decreased, and the buffer is as long as the new capacity. -/
theorem grow_inv {m m' : MMap} {fuel : Nat} {b : Backing} {sz : Int} {g : Bool}
    (hb : b.succeeds) (h0 : 0 ≤ m.cap) (hlen : ((m.mm.getD []).length : Int) = m.cap)
    (h : m.grow fuel b sz = some (g, m')) :
    m'.tail = m.tail ∧ sz < m'.cap ∧ m.cap ≤ m'.cap ∧
      ((m'.mm.getD []).length : Int) = m'.cap := by
  have hs : ¬ (m.cap = 0 ∧ b.statOk = false) := by
    intro hh
    have := hb.1
    rw [hh.2] at this
    exact Bool.false_ne_true this
  have hgt := grow_cap_gt h hs
  have hmono := grow_cap_mono h
  refine ⟨(grow_frame h).1, hgt, hmono, ?_⟩
  rcases grow_cases h with ⟨-, -, rfl⟩ | ⟨-, h2, -, -⟩ | ⟨-, -, c, -, hr⟩
  · exact hlen
  · exact absurd h2 hs
  · rw [growResult_ok m b c hb] at hr
    simp only [Prod.mk.injEq] at hr
    obtain ⟨-, rfl⟩ := hr
    have hc : 0 ≤ c := le_trans h0 hmono
    simp only [MMap.remapped, Option.getD_some, truncate_length]
    omega

/-- The same for `Grow`. -/
theorem Grow_inv {m m' : MMap} {fuel : Nat} {b : Backing} {sz : Int} {g : Bool}
    (hb : b.succeeds) (h0 : 0 ≤ m.cap) (hlen : ((m.mm.getD []).length : Int) = m.cap)
    (h : m.Grow fuel b sz = some (g, m')) :
    m'.tail = m.tail ∧ sz < m'.cap ∧ m.cap ≤ m'.cap ∧
      ((m'.mm.getD []).length : Int) = m'.cap := by
  obtain ⟨m1, hg, rfl⟩ := Grow_cases h
  have := grow_inv hb h0 hlen hg
  cases g <;> simpa [MMap.notify] using this

/-- Every call that meets a working backing store preserves the invariant, whatever its
size. -/
theorem call_inv {m m' : MMap} {fuel : Nat} {b : Backing} {op : Op} {out : Output}
    (hi : m.inv) (hb : b.succeeds) (h : m.call fuel b op = some (out, m')) : m'.inv := by
  obtain ⟨hc0, htc, hlen⟩ := hi
  cases op with
  | Grow sz =>
    simp only [MMap.call, Option.map_eq_some', Prod.mk.injEq] at h
    obtain ⟨⟨g, m1⟩, hG, -, rfl⟩ := h
    obtain ⟨h1, -, h3, h4⟩ := Grow_inv hb hc0 hlen hG
    refine ⟨?_, ?_, h4⟩
    · show 0 ≤ m1.cap
      omega
    · show m1.tail ≤ m1.cap
      omega
  | EnsureSize sz =>
    simp only [MMap.call, Option.map_eq_some', Prod.mk.injEq] at h
    obtain ⟨⟨g, m1⟩, hE, -, rfl⟩ := h
    unfold MMap.EnsureSize at hE
    by_cases ht : m.tail ≥ sz
    · rw [if_pos ht] at hE
      cases hE
      exact ⟨hc0, htc, hlen⟩
    · rw [if_neg ht] at hE
      have hlen' : ((({ m with tail := sz } : MMap).mm.getD []).length : Int)
          = ({ m with tail := sz } : MMap).cap := hlen
      have hc0' : 0 ≤ ({ m with tail := sz } : MMap).cap := hc0
      obtain ⟨h1, h2, h3, h4⟩ := grow_inv hb hc0' hlen' hE
      have h1' : m1.tail = sz := h1
      have h3' : m.cap ≤ m1.cap := h3
      refine ⟨?_, ?_, h4⟩
      · show 0 ≤ m1.cap
        omega
      · show m1.tail ≤ m1.cap
        omega
  | Allocate sz =>
    simp only [MMap.call, Option.map_eq_some', Prod.mk.injEq] at h
    obtain ⟨⟨⟨s, g⟩, m1⟩, hA, -, rfl⟩ := h
    by_cases ha : (m.fl.acquire sz).1 = -1
    · rw [Allocate_tail m fuel b sz ha] at hA
      cases hG : (m.carved sz).Grow fuel b (wrap64 (m.tail + sz)) with
      | none => simp [hG] at hA
      | some x =>
        obtain ⟨g1, m2⟩ := x
        simp only [hG, Option.map_some', Option.some.injEq, Prod.mk.injEq] at hA
        obtain ⟨-, rfl⟩ := hA
        have hlen' : ((((m.carved sz).mm).getD []).length : Int) = (m.carved sz).cap := hlen
        have hc0' : 0 ≤ (m.carved sz).cap := hc0
        obtain ⟨h1, h2, h3, h4⟩ := Grow_inv hb hc0' hlen' hG
        have h1' : m2.tail = wrap64 (m.tail + sz) := h1
        have h3' : m.cap ≤ m2.cap := h3
        refine ⟨?_, ?_, h4⟩
        · show 0 ≤ m2.cap
          omega
        · show m2.tail ≤ m2.cap
          omega
    · simp only [MMap.Allocate, ne_eq, ha, not_false_eq_true, if_true, Option.some.injEq,
        Prod.mk.injEq] at hA
      obtain ⟨-, rfl⟩ := hA
      exact ⟨hc0, htc, hlen⟩
  | Release s =>
    simp only [MMap.call, Option.some.injEq, Prod.mk.injEq] at h
    obtain ⟨-, rfl⟩ := h
    exact ⟨hc0, htc, hlen⟩

/-- A call with a positive size that stays within `2^62`, made with a tail that is not
negative, leaves the tail non-negative, and a section carved at the tail ends at the
new tail. -/
theorem call_tail {m m' : MMap} {fuel : Nat} {b : Backing} {op : Op} {out : Output}
    (ht : 0 ≤ m.tail) (hp : op.positive) (hw : op.within m)
    (h : m.call fuel b op = some (out, m')) :
    0 ≤ m'.tail ∧ ∀ sz s g, op = Op.Allocate sz → (m.fl.acquire sz).1 = -1 →
      out = Output.allocated s g → s.Offset + s.Size ≤ m'.tail := by
  cases op with
  | Grow sz =>
    simp only [MMap.call, Option.map_eq_some', Prod.mk.injEq] at h
    obtain ⟨⟨g, m1⟩, hG, -, rfl⟩ := h
    refine ⟨?_, fun sz' s g' hop => by cases hop⟩
    show 0 ≤ m1.tail
    rw [(Grow_frame hG).1]; exact ht
  | EnsureSize sz =>
    simp only [MMap.call, Option.map_eq_some', Prod.mk.injEq] at h
    obtain ⟨⟨g, m1⟩, hE, -, rfl⟩ := h
    refine ⟨?_, fun sz' s g' hop => by cases hop⟩
    show 0 ≤ m1.tail
    rw [(EnsureSize_post hE).1]
    exact le_trans ht (le_max_left _ _)
  | Allocate sz =>
    have hp' : 0 < sz := hp
    have hw' : m.tail + sz < 2 ^ 62 := hw
    have hwrap : wrap64 (m.tail + sz) = m.tail + sz := wrap64_eq _ (by omega) (by omega)
    simp only [MMap.call, Option.map_eq_some', Prod.mk.injEq] at h
    obtain ⟨⟨⟨s, g⟩, m1⟩, hA, hout, rfl⟩ := h
    by_cases ha : (m.fl.acquire sz).1 = -1
    · obtain ⟨hs, htail⟩ := Allocate_tail_post ha hA
      rw [hwrap] at htail
      refine ⟨?_, ?_⟩
      · show 0 ≤ m1.tail
        omega
      · intro sz' s' g' hop _ hout'
        rw [← hout] at hout'
        cases hout'
        cases hop
        show s.Offset + s.Size ≤ m1.tail
        rw [hs, htail]
    · simp only [MMap.Allocate, ne_eq, ha, not_false_eq_true, if_true, Option.some.injEq,
        Prod.mk.injEq] at hA
      obtain ⟨-, rfl⟩ := hA
      refine ⟨ht, ?_⟩
      intro sz' s' g' hop ha'
      cases hop
      exact absurd ha' ha
  | Release s =>
    simp only [MMap.call, Option.some.injEq, Prod.mk.injEq] at h
    obtain ⟨-, rfl⟩ := h
    exact ⟨ht, fun sz' s' g' hop => by cases hop⟩

/-- From a state with non-negative tail and capacity, every call with a positive size
that stays within `2^62` returns for every large enough fuel. -/
theorem call_returns (m : MMap) (b : Backing) (op : Op) (hc0 : 0 ≤ m.cap) (ht : 0 ≤ m.tail)
    (hp : op.positive) (hw : op.within m) :
    ∃ fuel, ∀ fuel', fuel ≤ fuel' → ∃ out m', m.call fuel' b op = some (out, m') := by
  cases op with
  | Grow sz =>
    have hp' : 0 < sz := hp
    have hw' : sz < 2 ^ 62 := hw
    refine ⟨sz.toNat + 2, fun fuel' hle => ?_⟩
    obtain ⟨g, m', hG, -⟩ := Grow_returns m b sz hc0 hp' hw' fuel' hle
    exact ⟨Output.grew g, m', by simp [MMap.call, hG]⟩
  | EnsureSize sz =>
    have hp' : 0 < sz := hp
    have hw' : sz < 2 ^ 62 := hw
    refine ⟨sz.toNat + 2, fun fuel' hle => ?_⟩
    by_cases h : sz ≤ m.tail
    · exact ⟨Output.grew false, m, by simp [MMap.call, EnsureSize_noop m fuel' b sz h]⟩
    · obtain ⟨g, m', hg, -⟩ :=
        grow_returns ({ m with tail := sz } : MMap) b sz hc0 hp' hw' fuel' hle
      have hE : m.EnsureSize fuel' b sz = some (g, m') := by
        unfold MMap.EnsureSize
        rw [if_neg (by simpa using h)]
        exact hg
      exact ⟨Output.grew g, m', by simp [MMap.call, hE]⟩
  | Allocate sz =>
    have hp' : 0 < sz := hp
    have hw' : m.tail + sz < 2 ^ 62 := hw
    have hwrap : wrap64 (m.tail + sz) = m.tail + sz := wrap64_eq _ (by omega) (by omega)
    refine ⟨(m.tail + sz).toNat + 2, fun fuel' hle => ?_⟩
    by_cases ha : (m.fl.acquire sz).1 = -1
    · obtain ⟨g, m1, hg, -⟩ :=
        Grow_returns (m.carved sz) b (m.tail + sz) hc0 (by omega) hw' fuel' hle
      exact ⟨Output.allocated { Offset := m.tail, Size := sz } g, m1, by
        simp [MMap.call, Allocate_tail m fuel' b sz ha, hwrap, hg]⟩
    · exact ⟨Output.allocated { Offset := (m.fl.acquire sz).1, Size := sz } false,
        { m with fl := (m.fl.acquire sz).2 }, by simp [MMap.call, MMap.Allocate, ha]⟩
  | Release s =>
    exact ⟨0, fun fuel' _ => ⟨Output.released, m.Release s, rfl⟩⟩

/-- Every reachable state satisfies the invariant. -/
theorem Reachable_inv {file : List Nat} {m : MMap} (h : Reachable file m) : m.inv := by
  induction h with
  | fresh => exact ⟨le_refl _, le_refl _, rfl⟩
  | call _ _ hb hcall ih => exact call_inv ih hb hcall

/-- Every state reached within `2^62` satisfies the invariant and has a tail that is
not negative. -/
theorem ReachableWithin_inv {file : List Nat} {m : MMap} (h : ReachableWithin file m) :
    m.inv ∧ 0 ≤ m.tail := by
  induction h with
  | fresh => exact ⟨⟨le_refl _, le_refl _, rfl⟩, le_refl _⟩
  | call _ hp hw hb hcall ih => exact ⟨call_inv ih.1 hb hcall, (call_tail ih.2 hp hw hcall).1⟩

/-- Counterexample to C15: on a fresh allocator over an empty file, with the backing
store working, the calls `Allocate(4)` and `Allocate(2^63 - 1)`, both with positive
sizes, return and leave the tail at `-9223372036854775805`, below 0, with capacity 8. -/
theorem Allocate_overflow_negative_tail :
    ((NewMMap []).call 9 Backing.ok (Op.Allocate 4)).bind (fun r =>
      (r.2.call 9 Backing.ok (Op.Allocate (2 ^ 63 - 1))).map (fun r2 =>
        (r2.2.tail, r2.2.cap)))
      = some (-9223372036854775805, 8) := by
  decide

/-- C15 (amended): in every state reached from a fresh allocator by `Grow`,
`EnsureSize`, `Allocate` and `Release` calls with positive sizes and a working backing
store, the tail is at most the capacity and the capacity is not negative. When moreover
every requested size (for `Grow` and `EnsureSize`) and every new tail (old tail plus
size, for `Allocate`) stays below `2^62`, `0 <= tail <= capacity` holds in the state
reached, every further such call returns, `0 <= tail <= capacity` holds after it, and a
section returned by a tail-based `Allocate` satisfies `Offset + Size <= tail`. -/
theorem tail_within_capacity (file : List Nat) (m : MMap) (h : ReachableWithin file m) :
    (∀ m2, Reachable file m2 → m2.tail ≤ m2.cap ∧ 0 ≤ m2.cap) ∧
    (0 ≤ m.tail ∧ m.tail ≤ m.cap) ∧
    ∀ (b : Backing) (op : Op), b.succeeds → op.positive → op.within m →
      ∃ fuel, ∀ fuel', fuel ≤ fuel' →
        ∃ out m', m.call fuel' b op = some (out, m') ∧ 0 ≤ m'.tail ∧ m'.tail ≤ m'.cap ∧
          ∀ sz s g, op = Op.Allocate sz → (m.fl.acquire sz).1 = -1 →
            out = Output.allocated s g → s.Offset + s.Size ≤ m'.tail := by
  obtain ⟨hi, ht⟩ := ReachableWithin_inv h
  refine ⟨fun m2 h2 => ⟨(Reachable_inv h2).2.1, (Reachable_inv h2).1⟩, ⟨ht, hi.2.1⟩,
    fun b op hb hp hw => ?_⟩
  obtain ⟨fuel, hfuel⟩ := call_returns m b op hi.1 ht hp hw
  refine ⟨fuel, fun fuel' hle => ?_⟩
  obtain ⟨out, m', hcall⟩ := hfuel fuel' hle
  obtain ⟨ht', hsec⟩ := call_tail ht hp hw hcall
  exact ⟨out, m', hcall, ht', (call_inv hi hb hcall).2.1, hsec⟩

/-- Witness of C15 (amended): the state reached by `Allocate(3)` on a fresh allocator
over an empty file (tail 3, capacity 6). -/
theorem tail_within_capacity_witness :
    (∀ m2, Reachable [] m2 → m2.tail ≤ m2.cap ∧ 0 ≤ m2.cap) ∧
    (0 ≤ (((NewMMap []).carved 3).remapped 6).notify.tail ∧
      (((NewMMap []).carved 3).remapped 6).notify.tail
        ≤ (((NewMMap []).carved 3).remapped 6).notify.cap) ∧
    ∀ (b : Backing) (op : Op), b.succeeds → op.positive →
      op.within (((NewMMap []).carved 3).remapped 6).notify →
      ∃ fuel, ∀ fuel', fuel ≤ fuel' →
        ∃ out m', (((NewMMap []).carved 3).remapped 6).notify.call fuel' b op
            = some (out, m') ∧ 0 ≤ m'.tail ∧ m'.tail ≤ m'.cap ∧
          ∀ sz s g, op = Op.Allocate sz →
            ((((NewMMap []).carved 3).remapped 6).notify.fl.acquire sz).1 = -1 →
            out = Output.allocated s g → s.Offset + s.Size ≤ m'.tail :=
  tail_within_capacity [] (((NewMMap []).carved 3).remapped 6).notify
    (@ReachableWithin.call [] (NewMMap []) (((NewMMap []).carved 3).remapped 6).notify
      Backing.ok 5 (Op.Allocate 3) (Output.allocated { Offset := 0, Size := 3 } true)
      ReachableWithin.fresh (by decide : (0 : Int) < 3)
      (by decide : (NewMMap []).tail + 3 < 2 ^ 62) (by decide) (by decide))

/-- C20: in every state reached from a fresh allocator by `Grow`, `EnsureSize`,
`Allocate` and `Release` calls with positive sizes and a working backing store, the
mapped buffer is exactly as long as the capacity, and `Get(offset, sz)` with
`0 <= offset`, `0 <= sz` and `offset + sz <= tail` does not panic: it returns `sz`
bytes, the byte at position `i` of the result being the byte at position `offset + i`
of the buffer, which lies inside the buffer. -/
theorem Get_within_tail (file : List Nat) (m : MMap) (h : Reachable file m) :
    ((m.mm.getD []).length : Int) = m.cap ∧
    ∀ offset sz : Int, 0 ≤ offset → 0 ≤ sz → offset + sz ≤ m.tail →
      ∃ bytes, m.Get offset sz = some bytes ∧ bytes.length = sz.toNat ∧
        offset.toNat + sz.toNat ≤ (m.mm.getD []).length ∧
        ∀ i : Nat, i < sz.toNat → bytes[i]? = (m.mm.getD [])[offset.toNat + i]? := by
  obtain ⟨-, htc, hlen⟩ := Reachable_inv h
  refine ⟨hlen, fun offset sz ho hs hle => ?_⟩
  have hin : offset + sz ≤ ((m.mm.getD []).length : Int) := by omega
  refine ⟨((m.mm.getD []).drop offset.toNat).take sz.toNat, ?_, ?_, by omega, ?_⟩
  · unfold MMap.Get
    simp only
    rw [if_pos ⟨ho, by omega, hin⟩]
  · simp only [List.length_take, List.length_drop]
    omega
  · intro i hi
    rw [List.getElem?_take_of_lt hi, List.getElem?_drop]

/-- Witness of C20: the state reached by `Allocate(3)` on a fresh allocator over an
empty file has a buffer of 6 bytes, its capacity, and `Get` answers every range within
the tail. -/
theorem Get_within_tail_witness :
    (((((NewMMap []).carved 3).remapped 6).notify.mm.getD []).length : Int)
      = (((NewMMap []).carved 3).remapped 6).notify.cap ∧
    ∀ offset sz : Int, 0 ≤ offset → 0 ≤ sz →
      offset + sz ≤ (((NewMMap []).carved 3).remapped 6).notify.tail →
      ∃ bytes, (((NewMMap []).carved 3).remapped 6).notify.Get offset sz = some bytes ∧
        bytes.length = sz.toNat ∧
        offset.toNat + sz.toNat
          ≤ ((((NewMMap []).carved 3).remapped 6).notify.mm.getD []).length ∧
        ∀ i : Nat, i < sz.toNat →
          bytes[i]? = ((((NewMMap []).carved 3).remapped 6).notify.mm.getD [])[offset.toNat + i]? :=
  Get_within_tail [] (((NewMMap []).carved 3).remapped 6).notify
    (@Reachable.call [] (NewMMap []) (((NewMMap []).carved 3).remapped 6).notify Backing.ok 5
      (Op.Allocate 3) (Output.allocated { Offset := 0, Size := 3 } true) Reachable.fresh
      (by decide : (0 : Int) < 3) (by decide) (by decide))

/-! ## Concurrent callers of Allocate -/

/-- A caller that runs its four steps without any other caller in between does exactly
what `Allocate` does. -/
theorem interleave_alone (m : MMap) (fuel : Nat) (b : Backing) (sz : Int) :
    interleave fuel b m [Caller.start sz] [0, 0, 0, 0]
      = (m.Allocate fuel b sz).map
          (fun r => (r.2, [{ sz := sz, pc := 4, s := r.1.1, grew := r.1.2 }])) := by
  by_cases ha : (m.fl.acquire sz).1 = -1
  · rw [Allocate_tail m fuel b sz ha]
    cases hG : (m.carved sz).Grow fuel b (wrap64 (m.tail + sz)) with
    | none =>
      have hG' : MMap.Grow { m with fl := (m.fl.acquire sz).2, tail := wrap64 (m.tail + sz) }
          fuel b (wrap64 (m.tail + sz)) = none := hG
      simp [interleave, MMap.AllocateStep, Caller.start, ha, hG']
    | some r =>
      obtain ⟨g, m1⟩ := r
      have hG' : MMap.Grow { m with fl := (m.fl.acquire sz).2, tail := wrap64 (m.tail + sz) }
          fuel b (wrap64 (m.tail + sz)) = some (g, m1) := hG
      simp [interleave, MMap.AllocateStep, Caller.start, ha, hG']
  · simp [interleave, MMap.AllocateStep, Caller.start, MMap.Allocate, ha]

/-- C17 (failing input): two callers run `Allocate(10)` and `Allocate(20)` on a fresh
allocator over an empty file, their statements alternating, so that both execute
`s.Offset = m.tail` before either executes `m.tail += sz`. Both calls return, with the
sections `{Offset 0, Size 10}` and `{Offset 0, Size 20}`, whose ranges overlap. -/
theorem concurrent_Allocate_overlap :
    (interleave 9 Backing.ok (NewMMap []) [Caller.start 10, Caller.start 20]
        [0, 1, 0, 1, 0, 1, 0, 1]).map (fun r => r.2.map (fun c => (c.pc, c.s)))
      = some [(4, { Offset := 0, Size := 10 }), (4, { Offset := 0, Size := 20 })] ∧
    ¬ Section.disjoint { Offset := 0, Size := 10 } { Offset := 0, Size := 20 } := by
  refine ⟨by decide, ?_⟩
  unfold Section.disjoint
  decide

end allocator
